import Mathlib

/-!
Verification of the grid pathfinding-and-pursuit engine (`maze1.py`).

The Python source is shallowly embedded: grids are lists of lists of
cell-type codes, positions are integer pairs, Python dictionaries are
association lists, the `heapq` priority queue is a list popped at its
lexicographic minimum entry, Python sets are `Finset`s or guarded lists,
and the two unbounded search loops are given explicit fuel.
-/

namespace Maze

/-- A position `(row, col)`; the Python source uses integer tuples, and
row/column values can go negative at grid edges before bounds checks. -/
abbrev Cell := Int × Int

/-- Cell-type code `EMPTY = 0`. -/
def EMPTY : Nat := 0

/-- Cell-type code `WALL = 1`. -/
def WALL : Nat := 1

/-- Cell-type code `START = 2`. -/
def START : Nat := 2

/-- Cell-type code `GOAL = 3`. -/
def GOAL : Nat := 3

/-- Cell-type code `REWARD = 7`. -/
def REWARD : Nat := 7

/-- Grid row count from the source configuration (`ROWS = 30`). -/
def ROWS : Nat := 30

/-- Grid column count from the source configuration (`COLS = 30`). -/
def COLS : Nat := 30

/-- Seeker move interval in milliseconds (`PAC_MOVE_INTERVAL = 120`). -/
def PAC_MOVE_INTERVAL : Nat := 120

/-- Pursuer move interval in milliseconds (`GHOST_MOVE_INTERVAL = 260`). -/
def GHOST_MOVE_INTERVAL : Nat := 260

/-- A grid is a matrix of cell-type codes (`list of lists` in the source). -/
abbrev Grid := List (List Nat)

/-- `make_grid`: a `rows × cols` matrix of `EMPTY` cells. -/
def make_grid (rows cols : Nat) : Grid :=
  List.replicate rows (List.replicate cols EMPTY)

/-- Read `grid[r][c]`; the source only indexes after a bounds check, so the
defaults are never consulted on the source's executions. -/
def gridAt (grid : Grid) (r c : Int) : Nat :=
  (grid.getD r.toNat []).getD c.toNat EMPTY

/-- Write `grid[r][c] = v` functionally. -/
def gridSet (grid : Grid) (r c : Int) (v : Nat) : Grid :=
  grid.set r.toNat ((grid.getD r.toNat []).set c.toNat v)

/-- The bounds test `0 <= r < rows and 0 <= c < cols`. -/
def inBoundsB (rows cols : Nat) (r c : Int) : Bool :=
  0 ≤ r && r < (rows : Int) && 0 ≤ c && c < (cols : Int)

/-- The four neighbor offsets, in the source's iteration order. -/
def dirs : List Cell := [(1, 0), (-1, 0), (0, 1), (0, -1)]

/-- `corner_positions()`: the four grid corners. -/
def corner_positions (rows cols : Nat) : List Cell :=
  [(0, 0), (0, (cols : Int) - 1), ((rows : Int) - 1, 0), ((rows : Int) - 1, (cols : Int) - 1)]

/-- Manhattan heuristic between two cells. -/
def heuristic (a b : Cell) : Nat :=
  (a.1 - b.1).natAbs + (a.2 - b.2).natAbs

/-! Python dictionaries as association lists: `dictSet` replaces the value at
an existing key in place and otherwise appends the new key, and `dictGet?`
returns the value at the first matching key. -/

/-- Dictionary write `m[k] = v`. -/
def dictSet {α : Type} (m : List (Cell × α)) (k : Cell) (v : α) : List (Cell × α) :=
  match m with
  | [] => [(k, v)]
  | (k', v') :: rest => if k' = k then (k, v) :: rest else (k', v') :: dictSet rest k v

/-- Dictionary read `m[k]` (`none` when the key is absent). -/
def dictGet? {α : Type} (m : List (Cell × α)) (k : Cell) : Option α :=
  match m with
  | [] => none
  | (k', v') :: rest => if k' = k then some v' else dictGet? rest k

/-! Score values: `float('inf')` is `none`, a finite score `n` is `some n`. -/

/-- Addition of `1` to a possibly-infinite score (`inf + 1 = inf`). -/
def scoreSucc : Option Nat → Option Nat
  | none => none
  | some n => some (n + 1)

/-- Addition of a finite heuristic to a possibly-infinite score. -/
def scoreAdd (a : Option Nat) (h : Nat) : Option Nat :=
  a.map (· + h)

/-- Strict comparison of possibly-infinite scores (`inf` is larger than
every finite value and not less than itself). -/
def scoreLt : Option Nat → Option Nat → Bool
  | none, _ => false
  | some _, none => true
  | some a, some b => a < b

/-- Score read from a score dictionary; every key the algorithm reads is
present, so the `none` default is never consulted. -/
def scoreGet (m : List (Cell × Option Nat)) (k : Cell) : Option Nat :=
  (dictGet? m k).getD none

/-- All in-range cells in row-major order, as enumerated by the dictionary
comprehensions initializing `g_score` and `f_score`. -/
def allCells (rows cols : Nat) : List Cell :=
  (List.range rows).flatMap fun r => (List.range cols).map fun c => ((r : Int), (c : Int))

/-! The `heapq` open set: entries `(f_score, counter, cell)`; `heappop`
removes the entry that is smallest in tuple order, and since every entry
carries a distinct counter the cell component never takes part in the
comparison. -/

/-- A heap entry `(f_score, counter, cell)`. -/
abbrev HeapEntry := Nat × Nat × Cell

/-- Strict lexicographic order on `(f_score, counter)`. -/
def entryLt (a b : HeapEntry) : Bool :=
  a.1 < b.1 || (a.1 = b.1 && a.2.1 < b.2.1)

/-- The minimum entry of a nonempty heap. -/
def heapMinFrom (e : HeapEntry) : List HeapEntry → HeapEntry
  | [] => e
  | e' :: rest => heapMinFrom (if entryLt e' e then e' else e) rest

/-- `heappop`: remove and return the minimum entry. -/
def heapPop (es : List HeapEntry) : Option (HeapEntry × List HeapEntry) :=
  match es with
  | [] => none
  | e :: rest =>
    let m := heapMinFrom e rest
    some (m, (e :: rest).erase m)

/-- `reconstruct_path`, with the accumulator playing the role of the final
`path.reverse()`: walking predecessors while prepending yields the reversed
append order directly.  The fuel bounds the predecessor walk; the callers
pass one more than the number of dictionary keys, which the loop cannot
exhaust on an acyclic predecessor dictionary. -/
def reconstructGo (cameFrom : List (Cell × Cell)) : Nat → Cell → List Cell → List Cell
  | 0, _, acc => acc
  | fuel + 1, current, acc =>
    match dictGet? cameFrom current with
    | none => acc
    | some prev => reconstructGo cameFrom fuel prev (prev :: acc)

/-- `reconstruct_path(came_from, current, start)` (the `start` argument is
unused in the source as well). -/
def reconstruct_path (cameFrom : List (Cell × Cell)) (current : Cell) : List Cell :=
  reconstructGo cameFrom (cameFrom.length + 1) current [current]

/-- The mutable state of the `astar` main loop. -/
structure AStarState where
  gscore : List (Cell × Option Nat)
  fscore : List (Cell × Option Nat)
  openSet : List HeapEntry
  cameFrom : List (Cell × Cell)
  inOpen : List Cell
  counter : Nat

/-- One neighbor relaxation of `astar`: bounds, wall and blocked checks,
then the strict-improvement update of `came_from`, `g_score`, `f_score`,
and a push guarded by `neighbor not in in_open`. -/
def astarRelax (rows cols : Nat) (grid : Grid) (goal : Cell) (blocked : List Cell)
    (cur : Cell) (st : AStarState) (d : Cell) : AStarState :=
  let nr := cur.1 + d.1
  let nc := cur.2 + d.2
  if ¬ inBoundsB rows cols nr nc then st
  else if gridAt grid nr nc = WALL then st
  else if (nr, nc) ∈ blocked then st
  else
    let neighbor : Cell := (nr, nc)
    let tentative := scoreSucc (scoreGet st.gscore cur)
    if scoreLt tentative (scoreGet st.gscore neighbor) then
      let cameFrom := dictSet st.cameFrom neighbor cur
      let gscore := dictSet st.gscore neighbor tentative
      let fnew := scoreAdd tentative (heuristic neighbor goal)
      let fscore := dictSet st.fscore neighbor fnew
      if neighbor ∈ st.inOpen then
        { st with gscore := gscore, fscore := fscore, cameFrom := cameFrom }
      else
        let counter := st.counter + 1
        { gscore := gscore, fscore := fscore, cameFrom := cameFrom,
          openSet := (fnew.getD 0, counter, neighbor) :: st.openSet,
          inOpen := neighbor :: st.inOpen, counter := counter }
    else st

/-- Expansion of a popped cell over the four neighbor offsets in order. -/
def astarVisit (rows cols : Nat) (grid : Grid) (goal : Cell) (blocked : List Cell)
    (st : AStarState) (cur : Cell) : AStarState :=
  dirs.foldl (astarRelax rows cols grid goal blocked cur) st

/-- The `while open_set:` loop of `astar`, with fuel. -/
def astarLoop (rows cols : Nat) (grid : Grid) (goal : Cell) (blocked : List Cell) :
    Nat → AStarState → Option (List Cell)
  | 0, _ => none
  | fuel + 1, st =>
    match heapPop st.openSet with
    | none => none
    | some ((_, _, cur), rest) =>
      let st' := { st with openSet := rest, inOpen := st.inOpen.erase cur }
      if cur = goal then some (reconstruct_path st'.cameFrom goal)
      else astarLoop rows cols grid goal blocked fuel (astarVisit rows cols grid goal blocked st' cur)

/-- Fuel amply covering the possible loop iterations. -/
def astarFuel (rows cols : Nat) : Nat :=
  (rows * cols + 2) * (rows * cols + 2)

/-- `astar(grid, start, goal, blocked)`: `None` endpoints are rejected up
front; `g_score`/`f_score` start at infinity on every in-range cell except
`start`; the open set holds the single entry `(h(start, goal), 0, start)`. -/
def astar (rows cols : Nat) (grid : Grid) (start goal : Option Cell)
    (blocked : List Cell) : Option (List Cell) :=
  match start, goal with
  | some start, some goal =>
    let base : List (Cell × Option Nat) := (allCells rows cols).map fun c => (c, none)
    let gscore := dictSet base start (some 0)
    let fscore := dictSet base start (some (heuristic start goal))
    let st : AStarState :=
      { gscore := gscore, fscore := fscore,
        openSet := [(heuristic start goal, 0, start)],
        cameFrom := [], inOpen := [start], counter := 0 }
    astarLoop rows cols grid goal blocked (astarFuel rows cols) st
  | _, _ => none

/-- The mutable state of the `bfs_path` loop: FIFO queue, visited set
(modelled as a list only ever extended under a not-member guard), and the
predecessor dictionary. -/
structure BfsState where
  q : List Cell
  visited : List Cell
  cameFrom : List (Cell × Cell)

/-- One neighbor step of `bfs_path`: bounds and wall checks, then mark
visited, record the predecessor and enqueue when not yet visited. -/
def bfsRelax (rows cols : Nat) (grid : Grid) (cur : Cell) (st : BfsState) (d : Cell) :
    BfsState :=
  let nr := cur.1 + d.1
  let nc := cur.2 + d.2
  if ¬ inBoundsB rows cols nr nc then st
  else if gridAt grid nr nc = WALL then st
  else
    let nxt : Cell := (nr, nc)
    if nxt ∈ st.visited then st
    else
      { q := st.q ++ [nxt], visited := nxt :: st.visited,
        cameFrom := dictSet st.cameFrom nxt cur }

/-- Expansion of a dequeued cell over the four neighbor offsets in order. -/
def bfsVisit (rows cols : Nat) (grid : Grid) (st : BfsState) (cur : Cell) : BfsState :=
  dirs.foldl (bfsRelax rows cols grid cur) st

/-- The `while q:` loop of `bfs_path`, with fuel; the in-source path
reconstruction at the goal is the same predecessor walk as
`reconstruct_path`. -/
def bfsLoop (rows cols : Nat) (grid : Grid) (goal : Cell) :
    Nat → BfsState → Option (List Cell)
  | 0, _ => none
  | fuel + 1, st =>
    match st.q with
    | [] => none
    | cur :: rest =>
      if cur = goal then
        some (reconstructGo st.cameFrom (st.cameFrom.length + 1) cur [cur])
      else
        bfsLoop rows cols grid goal fuel (bfsVisit rows cols grid { st with q := rest } cur)

/-- Fuel amply covering the possible loop iterations (each dequeued cell was
enqueued exactly once, under the not-visited guard). -/
def bfsFuel (rows cols : Nat) : Nat :=
  rows * cols + 2

/-- `bfs_path(grid, start, goal)`: `None` endpoints rejected, `[start]`
returned when the endpoints coincide, otherwise the FIFO search. -/
def bfs_path (rows cols : Nat) (grid : Grid) (start goal : Option Cell) :
    Option (List Cell) :=
  match start, goal with
  | some start, some goal =>
    if start = goal then some [start]
    else
      bfsLoop rows cols grid goal (bfsFuel rows cols)
        { q := [start], visited := [start], cameFrom := [] }
  | _, _ => none

/-! The game-logic section of the `main` loop (its per-frame block guarded
by `playing and not game_over and pac_pos is not None`), embedded as a
state-transition function.  Timestamps are the millisecond counts returned
by the clock; the collision branch calls the clock a second time, so the
transition takes both readings. -/

/-- The state the game-logic block reads and writes. -/
structure GState where
  grid : Grid
  goal : Option Cell
  pacPos : Option Cell
  ghostPositions : List Cell
  rewardCells : Finset Cell
  playing : Bool
  gameOver : Bool
  reason : Option String
  score : Nat
  finalScore : Option Nat
  startTime : Option Nat
  endTime : Option Nat
  lastPacMoveTime : Nat
  lastGhostMoveTime : Nat
deriving DecidableEq

/-- The seeker block: on an elapsed seeker interval, re-plan with `astar`
treating the current pursuer cells as blocked; a missing or short path is
the stuck transition, otherwise advance to the path's second cell, collect
a reward there and test the win condition. -/
def pacPhase (s : GState) (now : Nat) : GState :=
  if now - s.lastPacMoveTime ≥ PAC_MOVE_INTERVAL then
    let s1 := { s with lastPacMoveTime := now }
    let blocked := s1.ghostPositions
    let path := astar ROWS COLS s1.grid s1.pacPos s1.goal blocked
    match path with
    | none =>
      { s1 with playing := false, gameOver := true, reason := some "stuck",
                finalScore := some s1.score, endTime := some now }
    | some p =>
      if p.length < 2 then
        { s1 with playing := false, gameOver := true, reason := some "stuck",
                  finalScore := some s1.score, endTime := some now }
      else
        let next_cell := p.getD 1 (0, 0)
        let s2 := { s1 with pacPos := some next_cell }
        let s3 :=
          if next_cell ∈ s2.rewardCells then
            { s2 with score := s2.score + 1, rewardCells := s2.rewardCells.erase next_cell }
          else s2
        if s3.pacPos = s3.goal then
          { s3 with playing := false, gameOver := true, reason := some "win",
                    finalScore := some s3.score, endTime := some now }
        else s3
  else s

/-- The advancement of a single pursuer: follow the second cell of its
`bfs_path` toward the agent when that path has at least two cells,
otherwise stand still. -/
def ghostStep (grid : Grid) (target : Option Cell) (gpos : Cell) : Cell :=
  match bfs_path ROWS COLS grid (some gpos) target with
  | some pg => if pg.length ≥ 2 then pg.getD 1 gpos else gpos
  | none => gpos

/-- The pursuer block: on an elapsed pursuer interval (and a nonempty
pursuer list and a defined agent), advance every pursuer independently. -/
def ghostPhase (s : GState) (now : Nat) : GState :=
  if s.ghostPositions ≠ [] ∧ s.pacPos ≠ none ∧
      now - s.lastGhostMoveTime ≥ GHOST_MOVE_INTERVAL then
    { s with lastGhostMoveTime := now,
             ghostPositions := s.ghostPositions.map (ghostStep s.grid s.pacPos) }
  else s

/-- The collision test: a defined agent standing on any pursuer's cell ends
the game with the ghost reason; the end timestamp is a fresh clock
reading. -/
def collisionPhase (s : GState) (now2 : Nat) : GState :=
  match s.pacPos with
  | some p =>
    if s.ghostPositions ≠ [] ∧ p ∈ s.ghostPositions then
      { s with playing := false, gameOver := true, reason := some "ghost",
               finalScore := some s.score, endTime := some now2 }
    else s
  | none => s

/-- One pass of the game-logic section: seeker block, pursuer block, then
collision test, entered only when playing, not yet over and the agent is
defined. -/
def gameTick (s : GState) (now now2 : Nat) : GState :=
  if s.playing ∧ s.gameOver = false ∧ s.pacPos ≠ none then
    collisionPhase (ghostPhase (pacPhase s now) now) now2
  else s

/-! Editing operations relevant to the pursuer/wall interaction, from the
event-handling section of `main`. -/

/-- The default corner spawn: append every in-range non-wall corner. -/
def cornerSpawn (rows cols : Nat) (grid : Grid) : List Cell :=
  (corner_positions rows cols).filter fun p =>
    inBoundsB rows cols p.1 p.2 && gridAt grid p.1 p.2 ≠ WALL

/-- The level-load follow-up: append every in-range non-wall corner that is
not already a pursuer. -/
def ensureCornerGhosts (rows cols : Nat) (grid : Grid) (ghosts : List Cell) : List Cell :=
  (corner_positions rows cols).foldl
    (fun acc p =>
      if inBoundsB rows cols p.1 p.2 && gridAt grid p.1 p.2 ≠ WALL then
        if p ∈ acc then acc else acc ++ [p]
      else acc)
    ghosts

/-- The ghost-add editing click (`G` held): append the clicked cell when it
is not already a pursuer — the source performs no wall check here. -/
def addGhostClick (ghosts : List Cell) (cell : Cell) : List Cell :=
  if cell ∈ ghosts then ghosts else ghosts ++ [cell]

/-- The wall-placing branch of a normal click (cell is neither start nor
goal): write a wall, drop any reward there, and remove a pursuer standing
there. -/
def placeWall (grid : Grid) (rewards : Finset Cell) (ghosts : List Cell) (cell : Cell) :
    Grid × Finset Cell × List Cell :=
  (gridSet grid cell.1 cell.2 WALL, rewards.erase cell,
    if cell ∈ ghosts then ghosts.erase cell else ghosts)

/-! The level loader `load_level`, embedded from the point where the file's
non-blank lines (with newlines stripped) are in hand. -/

/-- The loader's result quintuple. -/
structure LevelData where
  grid : Grid
  start : Option Cell
  goal : Option Cell
  reward_cells : Finset Cell
  ghost_positions : List Cell
deriving DecidableEq

/-- The action of a single level character at region coordinates `(r, c)`
under the centering offset: out-of-range targets are dropped, `#` writes a
wall, `S`/`G` write and record start/goal, `D` writes and records a reward,
`X` records a pursuer leaving the cell value alone, anything else writes
`EMPTY`. -/
def processChar (off : Cell) (acc : LevelData) (r c : Nat) (ch : Char) : LevelData :=
  let gr := (r : Int) + off.1
  let gc := (c : Int) + off.2
  if ¬ inBoundsB ROWS COLS gr gc then acc
  else if ch = '#' then { acc with grid := gridSet acc.grid gr gc WALL }
  else if ch = 'S' then
    { acc with grid := gridSet acc.grid gr gc START, start := some (gr, gc) }
  else if ch = 'G' then
    { acc with grid := gridSet acc.grid gr gc GOAL, goal := some (gr, gc) }
  else if ch = 'D' then
    { acc with grid := gridSet acc.grid gr gc REWARD,
               reward_cells := insert (gr, gc) acc.reward_cells }
  else if ch = 'X' then
    { acc with ghost_positions := acc.ghost_positions ++ [(gr, gc)] }
  else { acc with grid := gridSet acc.grid gr gc EMPTY }

/-- One line of the level, processed character by character. -/
def processLine (off : Cell) (acc : LevelData) (r : Nat) (line : List Char) : LevelData :=
  line.enum.foldl (fun a p => processChar off a r p.1 p.2) acc

/-- The empty loader result (missing file, or a file with no non-blank
lines). -/
def emptyLevel : LevelData :=
  { grid := make_grid ROWS COLS, start := none, goal := none,
    reward_cells := ∅, ghost_positions := [] }

/-- The width of the level region: the maximum line length. -/
def levelCols (lines : List (List Char)) : Nat :=
  lines.foldl (fun m line => max m line.length) 0

/-- The centering offset `((ROWS - level_rows) // 2, (COLS - level_cols) // 2)`
with Python floor division, so possibly negative. -/
def levelOffset (lines : List (List Char)) : Cell :=
  (Int.fdiv ((ROWS : Int) - lines.length) 2, Int.fdiv ((COLS : Int) - levelCols lines) 2)

/-- `load_level` on the list of surviving lines. -/
def load_level (lines : List (List Char)) : LevelData :=
  if lines = [] then emptyLevel
  else
    lines.enum.foldl (fun acc p => processLine (levelOffset lines) acc p.1 p.2) emptyLevel

/-! Specification-side notions: the 4-connected walkability graph and paths
in it, step-counted reachability, and the predecessor-dictionary walks that
`reconstruct_path` performs. -/

/-- 4-adjacency: `b` is one neighbor offset away from `a`. -/
def Adj (a b : Cell) : Prop :=
  (b.1 - a.1, b.2 - a.2) ∈ dirs

instance (a b : Cell) : Decidable (Adj a b) :=
  inferInstanceAs (Decidable ((b.1 - a.1, b.2 - a.2) ∈ dirs))

/-- A cell a search may step onto: in bounds and not a wall. -/
def stepOK (rows cols : Nat) (grid : Grid) (p : Cell) : Prop :=
  inBoundsB rows cols p.1 p.2 = true ∧ gridAt grid p.1 p.2 ≠ WALL

instance (rows cols : Nat) (grid : Grid) (p : Cell) : Decidable (stepOK rows cols grid p) :=
  inferInstanceAs (Decidable (inBoundsB rows cols p.1 p.2 = true ∧ gridAt grid p.1 p.2 ≠ WALL))

/-- A step cell additionally outside the blocked set (the seeker's rule). -/
def stepFree (rows cols : Nat) (grid : Grid) (blocked : List Cell) (p : Cell) : Prop :=
  stepOK rows cols grid p ∧ p ∉ blocked

instance (rows cols : Nat) (grid : Grid) (blocked : List Cell) (p : Cell) :
    Decidable (stepFree rows cols grid blocked p) :=
  inferInstanceAs (Decidable (stepOK rows cols grid p ∧ p ∉ blocked))

/-- A walk from `s` to `z`: the list starts at `s`, ends at `z`, moves by
4-adjacency, and every cell after the first satisfies `ok` (the searches
never validate their own start cell). -/
inductive Walk (ok : Cell → Prop) : Cell → List Cell → Cell → Prop
  | single (a : Cell) : Walk ok a [a] a
  | cons {a b z : Cell} {p : List Cell} :
      Adj a b → ok b → Walk ok b p z → Walk ok a (a :: p) z

/-- Step-counted reachability along `ok` cells. -/
inductive ReachN (ok : Cell → Prop) (s : Cell) : Cell → Nat → Prop
  | refl : ReachN ok s s 0
  | step {v w : Cell} {n : Nat} : ReachN ok s v n → Adj v w → ok w → ReachN ok s w (n + 1)

/-- `k` is the exact distance: attained, and a lower bound of every
reachability count. -/
def DistIs (ok : Cell → Prop) (s v : Cell) (k : Nat) : Prop :=
  ReachN ok s v k ∧ ∀ m, ReachN ok s v m → k ≤ m

/-- The full predecessor walk of a dictionary from a cell down to a cell
with no recorded predecessor, listed in start-to-end order. -/
inductive Chain (cf : List (Cell × Cell)) : Cell → List Cell → Prop
  | base {v : Cell} : dictGet? cf v = none → Chain cf v [v]
  | step {v u : Cell} {p : List Cell} :
      dictGet? cf v = some u → Chain cf u p → Chain cf v (p ++ [v])

/-- The pursuer/wall separation invariant. -/
def GhostsOffWalls (grid : Grid) (ghosts : List Cell) : Prop :=
  ∀ p ∈ ghosts, gridAt grid p.1 p.2 ≠ WALL

/-- The cell-type code a level character paints (an `X` leaves the freshly
initialized `EMPTY` in place, as does every unrecognized character). -/
def charCell (ch : Char) : Nat :=
  if ch = '#' then WALL
  else if ch = 'S' then START
  else if ch = 'G' then GOAL
  else if ch = 'D' then REWARD
  else EMPTY

/-- A 7×10 grid (0 = empty, 1 = wall) on which the lazy open-set handling
of `astar` pops the goal with a stale, non-optimal score. -/
def mazeC1 : Grid :=
  [[0, 1, 0, 0, 0, 0, 0, 0, 0, 0],
   [0, 1, 0, 0, 0, 0, 0, 0, 0, 0],
   [0, 1, 0, 0, 1, 0, 0, 0, 0, 0],
   [0, 0, 0, 0, 1, 0, 0, 0, 0, 0],
   [1, 0, 0, 0, 0, 1, 0, 0, 0, 0],
   [0, 1, 0, 0, 1, 0, 0, 1, 0, 0],
   [0, 0, 0, 0, 0, 0, 0, 0, 0, 0]]

/-- A 17-cell walk on `mazeC1` from `(5, 9)` to `(0, 0)` over non-wall
cells (two cells shorter than the 19-cell path `astar` returns there). -/
def pathC1 : List Cell :=
  [(5, 9), (6, 9), (6, 8), (6, 7), (6, 6), (6, 5), (6, 4), (6, 3), (5, 3), (4, 3),
   (3, 3), (3, 2), (3, 1), (3, 0), (2, 0), (1, 0), (0, 0)]

/-- A running state with the agent one step from the goal and a pursuer two
steps behind the goal; both movement timers are due. -/
def stateWinThenCaught : GState :=
  { grid := make_grid ROWS COLS, goal := some (0, 2), pacPos := some (0, 1),
    ghostPositions := [(0, 3)], rewardCells := ∅, playing := true, gameOver := false,
    reason := none, score := 0, finalScore := none, startTime := some 0, endTime := none,
    lastPacMoveTime := 0, lastGhostMoveTime := 0 }

/-- A running state with the agent one step from the goal and a distant
pursuer; both movement timers are due. -/
def stateWinGhostFar : GState :=
  { grid := make_grid ROWS COLS, goal := some (0, 2), pacPos := some (0, 1),
    ghostPositions := [(0, 6)], rewardCells := ∅, playing := true, gameOver := false,
    reason := none, score := 0, finalScore := none, startTime := some 0, endTime := none,
    lastPacMoveTime := 0, lastGhostMoveTime := 0 }

/-- A running state with the agent standing on the goal cell and no
pursuers; the seeker timer is due. -/
def stateOnGoal : GState :=
  { grid := make_grid ROWS COLS, goal := some (2, 2), pacPos := some (2, 2),
    ghostPositions := [], rewardCells := ∅, playing := true, gameOver := false,
    reason := none, score := 0, finalScore := none, startTime := some 0, endTime := none,
    lastPacMoveTime := 0, lastGhostMoveTime := 0 }

/-- A running state with a reward on the agent's next step toward the
goal. -/
def stateRewardAhead : GState :=
  { grid := make_grid ROWS COLS, goal := some (0, 3), pacPos := some (0, 1),
    ghostPositions := [], rewardCells := {(0, 2)}, playing := true, gameOver := false,
    reason := none, score := 0, finalScore := none, startTime := some 0, endTime := none,
    lastPacMoveTime := 0, lastGhostMoveTime := 0 }

/-- The flattened `(row, col, char)` stream of a level, in the loader's
scan order. -/
def charsOf (lines : List (List Char)) : List (Nat × Nat × Char) :=
  lines.enum.flatMap fun rl => rl.2.enum.map fun cch => (rl.1, cch.1, cch.2)

/-- One flattened loader step. -/
def procStep (off : Cell) (acc : LevelData) (t : Nat × Nat × Char) : LevelData :=
  processChar off acc t.1 t.2.1 t.2.2

/-- The grid cell a region coordinate maps to under the centering offset. -/
def imageOf (off : Cell) (r c : Nat) : Cell :=
  ((r : Int) + off.1, (c : Int) + off.2)

/-- Whether a level character writes the given grid cell (`X` writes
nothing, out-of-range images are dropped). -/
def writesB (off : Cell) (t : Nat × Nat × Char) (cell : Cell) : Bool :=
  imageOf off t.1 t.2.1 = cell && inBoundsB ROWS COLS cell.1 cell.2 && ¬ t.2.2 = 'X'

/-- Whether a level character appends a pursuer. -/
def ghostAddB (off : Cell) (t : Nat × Nat × Char) : Bool :=
  inBoundsB ROWS COLS (imageOf off t.1 t.2.1).1 (imageOf off t.1 t.2.1).2 && t.2.2 = 'X'

/-- Whether a level character inserts a reward. -/
def rewardAddB (off : Cell) (t : Nat × Nat × Char) : Bool :=
  inBoundsB ROWS COLS (imageOf off t.1 t.2.1).1 (imageOf off t.1 t.2.1).2 && t.2.2 = 'D'

/-- Whether a level character sets the start. -/
def startSetB (off : Cell) (t : Nat × Nat × Char) : Bool :=
  inBoundsB ROWS COLS (imageOf off t.1 t.2.1).1 (imageOf off t.1 t.2.1).2 && t.2.2 = 'S'

/-- Whether a level character sets the goal. -/
def goalSetB (off : Cell) (t : Nat × Nat × Char) : Bool :=
  inBoundsB ROWS COLS (imageOf off t.1 t.2.1).1 (imageOf off t.1 t.2.1).2 && t.2.2 = 'G'

/-- A well-formed `ROWS × COLS` grid shape. -/
def gridShape (g : Grid) : Prop :=
  g.length = ROWS ∧ ∀ row ∈ g, row.length = COLS

/-- Soundness invariant of the `astar` loop state: the start cell scores
zero, every predecessor edge records an adjacent move onto a traversable
unblocked non-start cell whose score exceeds its predecessor's, every open
entry's cell has a finite score, and every finite-score cell other than the
start has a predecessor. -/
structure AInv (rows cols : Nat) (grid : Grid) (blocked : List Cell) (start : Cell)
    (st : AStarState) : Prop where
  gstart : scoreGet st.gscore start = some 0
  parent : ∀ v u, dictGet? st.cameFrom v = some u →
    Adj u v ∧ stepFree rows cols grid blocked v ∧ v ≠ start ∧
      ∃ n m, scoreGet st.gscore v = some n ∧ scoreGet st.gscore u = some m ∧ m < n
  openFinite : ∀ e ∈ st.openSet, (scoreGet st.gscore e.2.2).isSome
  finiteKey : ∀ v, (scoreGet st.gscore v).isSome → v = start ∨ (dictGet? st.cameFrom v).isSome

/-- Termination measure of the `bfs_path` loop: the queue length plus the
count of never-visited cells (the visited list is duplicate-free and lives
inside the start cell plus the `rows × cols` range, so it never exceeds
`1 + rows * cols`). -/
def bfsMeasure (rows cols : Nat) (st : BfsState) : Nat :=
  st.q.length + (1 + rows * cols - st.visited.length)

/-- Correctness invariant of the `bfs_path` loop between iterations, with
the queue front at distance `k` from the start: the visited list is
duplicate-free and holds only the start and traversable cells, the queue
is a prefix of distance-`k` cells followed by distance-`k+1` cells, every
cell within distance `k` is visited, every visited cell off the queue has
all its traversable neighbors visited, the goal is never silently
processed, and the predecessor dictionary records adjacent moves that
increase the exact distance by one, rooted at the start. -/
structure BInv (rows cols : Nat) (grid : Grid) (start goal : Cell) (k : Nat)
    (st : BfsState) : Prop where
  vnodup : st.visited.Nodup
  vbound : ∀ v ∈ st.visited, v = start ∨ stepOK rows cols grid v
  startVis : start ∈ st.visited
  qsub : ∀ v ∈ st.q, v ∈ st.visited
  qsplit : ∃ q1 q2, st.q = q1 ++ q2 ∧
    (∀ v ∈ q1, DistIs (stepOK rows cols grid) start v k) ∧
    (∀ v ∈ q2, DistIs (stepOK rows cols grid) start v (k + 1))
  visDist : ∀ v ∈ st.visited, ∃ n, DistIs (stepOK rows cols grid) start v n
  levelComplete : ∀ w n, ReachN (stepOK rows cols grid) start w n → n ≤ k →
    w ∈ st.visited
  closure : ∀ u ∈ st.visited, u ∉ st.q →
    ∀ w, Adj u w → stepOK rows cols grid w → w ∈ st.visited
  goalPending : goal ∈ st.visited → goal ∈ st.q
  cfroot : dictGet? st.cameFrom start = none
  cfparent : ∀ v u, dictGet? st.cameFrom v = some u →
    Adj u v ∧ stepOK rows cols grid v ∧ u ∈ st.visited ∧
      ∃ n, DistIs (stepOK rows cols grid) start u n ∧
        DistIs (stepOK rows cols grid) start v (n + 1)
  cfkeys : ∀ v ∈ st.visited, v ≠ start → (dictGet? st.cameFrom v).isSome

/-- The invariant while the dequeued cell `cur` is being expanded: `cur` is
exempted from the closure clause until its four neighbors have been
relaxed. -/
structure BMid (rows cols : Nat) (grid : Grid) (start goal : Cell) (k : Nat)
    (cur : Cell) (st : BfsState) : Prop where
  vnodup : st.visited.Nodup
  vbound : ∀ v ∈ st.visited, v = start ∨ stepOK rows cols grid v
  startVis : start ∈ st.visited
  qsub : ∀ v ∈ st.q, v ∈ st.visited
  qsplit : ∃ q1 q2, st.q = q1 ++ q2 ∧
    (∀ v ∈ q1, DistIs (stepOK rows cols grid) start v k) ∧
    (∀ v ∈ q2, DistIs (stepOK rows cols grid) start v (k + 1))
  visDist : ∀ v ∈ st.visited, ∃ n, DistIs (stepOK rows cols grid) start v n
  levelComplete : ∀ w n, ReachN (stepOK rows cols grid) start w n → n ≤ k →
    w ∈ st.visited
  closure : ∀ u ∈ st.visited, u ∉ st.q → u ≠ cur →
    ∀ w, Adj u w → stepOK rows cols grid w → w ∈ st.visited
  goalPending : goal ∈ st.visited → goal ∈ st.q
  cfroot : dictGet? st.cameFrom start = none
  cfparent : ∀ v u, dictGet? st.cameFrom v = some u →
    Adj u v ∧ stepOK rows cols grid v ∧ u ∈ st.visited ∧
      ∃ n, DistIs (stepOK rows cols grid) start u n ∧
        DistIs (stepOK rows cols grid) start v (n + 1)
  cfkeys : ∀ v ∈ st.visited, v ≠ start → (dictGet? st.cameFrom v).isSome
  curVis : cur ∈ st.visited
  curDist : DistIs (stepOK rows cols grid) start cur k

/-! Dictionary lemmas. -/

theorem dictGet?_dictSet {α : Type} (m : List (Cell × α)) (k : Cell) (v : α) (x : Cell) :
    dictGet? (dictSet m k v) x = if x = k then some v else dictGet? m x := by
  induction m with
  | nil =>
    simp only [dictSet, dictGet?]
    by_cases hx : x = k
    · subst hx; simp
    · rw [if_neg (fun h => hx h.symm), if_neg hx]
  | cons kv rest ih =>
    obtain ⟨k', v'⟩ := kv
    simp only [dictSet]
    by_cases hk : k' = k
    · subst hk
      simp only [if_pos rfl, dictGet?]
      by_cases hx : x = k'
      · subst hx; simp
      · have hk'x : ¬ k' = x := fun h => hx h.symm
        rw [if_neg hk'x, if_neg hx, if_neg hk'x]
    · simp only [if_neg hk, dictGet?]
      by_cases hx : x = k'
      · subst hx
        rw [if_pos rfl, if_neg (fun h => hk h), if_pos rfl]
      · have hk'x : ¬ k' = x := fun h => hx h.symm
        rw [if_neg hk'x, ih]
        by_cases hxk : x = k
        · simp [hxk]
        · simp [hxk, hk'x]

theorem dictGet?_dictSet_self {α : Type} (m : List (Cell × α)) (k : Cell) (v : α) :
    dictGet? (dictSet m k v) k = some v := by
  simp [dictGet?_dictSet]

theorem dictGet?_dictSet_ne {α : Type} (m : List (Cell × α)) (k : Cell) (v : α) (x : Cell)
    (h : x ≠ k) : dictGet? (dictSet m k v) x = dictGet? m x := by
  simp [dictGet?_dictSet, h]

theorem dictSet_length {α : Type} (m : List (Cell × α)) (k : Cell) (v : α) :
    m.length ≤ (dictSet m k v).length := by
  induction m with
  | nil => simp [dictSet]
  | cons kv rest ih =>
    by_cases hk : kv.1 = k <;> simp [dictSet, hk] <;> omega

/-- A key of the base comprehension dictionary reads back its value. -/
theorem dictGet?_of_mem_map {α : Type} (cells : List Cell) (f : Cell → α) (x : Cell)
    (hx : x ∈ cells) : dictGet? (cells.map fun c => (c, f c)) x = some (f x) := by
  induction cells with
  | nil => cases hx
  | cons c rest ih =>
    rcases List.mem_cons.mp hx with h | h
    · subst h; simp [dictGet?]
    · by_cases hc : c = x
      · subst hc; simp [dictGet?]
      · simp [dictGet?, hc, ih h]

/-! Heap lemmas. -/

theorem heapMinFrom_mem (e : HeapEntry) (l : List HeapEntry) :
    heapMinFrom e l = e ∨ heapMinFrom e l ∈ l := by
  induction l generalizing e with
  | nil => left; rfl
  | cons e' rest ih =>
    unfold heapMinFrom
    rcases ih (if entryLt e' e then e' else e) with h | h
    · by_cases hlt : entryLt e' e
      · right; rw [h]; simp [hlt]
      · left; rw [h]; simp [hlt]
    · right; exact List.mem_cons_of_mem _ h

theorem heapPop_mem {es : List HeapEntry} {e : HeapEntry} {rest : List HeapEntry}
    (h : heapPop es = some (e, rest)) : e ∈ es ∧ rest = es.erase e := by
  match es with
  | [] => simp [heapPop] at h
  | e0 :: tl =>
    simp only [heapPop] at h
    obtain ⟨he, hrest⟩ := Prod.mk.injEq .. ▸ (Option.some.injEq .. ▸ h)
    constructor
    · rw [← he]
      rcases heapMinFrom_mem e0 tl with h' | h'
      · rw [h']; exact List.mem_cons_self _ _
      · exact List.mem_cons_of_mem _ h'
    · rw [← hrest, ← he]

theorem erase_subset_self (l : List HeapEntry) (e : HeapEntry) (x : HeapEntry)
    (hx : x ∈ l.erase e) : x ∈ l :=
  List.mem_of_mem_erase hx

/-! Walk lemmas. -/

theorem Walk.ne_nil {ok : Cell → Prop} {s z : Cell} {p : List Cell}
    (h : Walk ok s p z) : p ≠ [] := by
  cases h <;> simp

theorem Walk.head?_eq {ok : Cell → Prop} {s z : Cell} {p : List Cell}
    (h : Walk ok s p z) : p.head? = some s := by
  cases h <;> rfl

theorem Walk.getLast?_eq {ok : Cell → Prop} {s z : Cell} {p : List Cell}
    (h : Walk ok s p z) : p.getLast? = some z := by
  induction h with
  | single a => rfl
  | cons hadj hok htail ih =>
    rename_i a b z' p'
    cases p' with
    | nil => exact absurd rfl htail.ne_nil
    | cons x xs => simpa [List.getLast?_cons_cons] using ih

theorem Walk.chain'_adj {ok : Cell → Prop} {s z : Cell} {p : List Cell}
    (h : Walk ok s p z) : List.Chain' Adj p := by
  induction h with
  | single a => simp
  | cons hadj hok htail ih =>
    rename_i a b z' p'
    exact List.Chain'.cons' ih (by
      intro y hy
      have := htail.head?_eq
      rw [this] at hy
      cases hy
      exact hadj)

theorem Walk.tail_ok {ok : Cell → Prop} {s z : Cell} {p : List Cell}
    (h : Walk ok s p z) : ∀ v ∈ p.tail, ok v := by
  induction h with
  | single a => simp
  | cons hadj hok htail ih =>
    rename_i a b z' p'
    intro v hv
    simp only [List.tail_cons] at hv
    cases htail with
    | single c =>
      simp at hv; subst hv; exact hok
    | cons hadj' hok' htail' =>
      rcases List.mem_cons.mp hv with h' | h'
      · subst h'; exact hok
      · exact ih v h'

theorem Walk.snoc {ok : Cell → Prop} {s z : Cell} {p : List Cell}
    (h : Walk ok s p z) : ∀ {w : Cell}, Adj z w → ok w → Walk ok s (p ++ [w]) w := by
  induction h with
  | single a => intro w hadj hok; exact Walk.cons hadj hok (Walk.single w)
  | cons hadj' hok' htail ih =>
    intro w hadj hok
    exact Walk.cons hadj' hok' (ih hadj hok)

theorem Walk.length_pos {ok : Cell → Prop} {s z : Cell} {p : List Cell}
    (h : Walk ok s p z) : 0 < p.length := by
  cases h <;> simp

/-- A walk out of an already-reached cell extends the reachability count by
the walk's step count. -/
theorem Walk.reachN_extend {ok : Cell → Prop} {s z : Cell} {p : List Cell}
    (h : Walk ok s p z) :
    ∀ (t : Cell) (m : Nat), ReachN ok t s m → ReachN ok t z (m + (p.length - 1)) := by
  induction h with
  | single a => intro t m hr; simpa using hr
  | cons hadj hok htail ih =>
    rename_i a b z' p'
    intro t m hr
    have hb := ih t (m + 1) (hr.step hadj hok)
    have hlen : 0 < p'.length := htail.length_pos
    have : m + 1 + (p'.length - 1) = m + ((a :: p').length - 1) := by
      simp only [List.length_cons]; omega
    rwa [this] at hb

/-- The reachability count of a walk. -/
theorem Walk.toReachN {ok : Cell → Prop} {s z : Cell} {p : List Cell}
    (h : Walk ok s p z) : ReachN ok s z (p.length - 1) := by
  have := h.reachN_extend s 0 ReachN.refl
  simpa using this

/-- Walks and step-counted reachability agree. -/
theorem reachN_iff_walk (ok : Cell → Prop) (s z : Cell) (n : Nat) :
    ReachN ok s z n ↔ ∃ p, Walk ok s p z ∧ p.length = n + 1 := by
  constructor
  · intro h
    induction h with
    | refl => exact ⟨[s], Walk.single s, rfl⟩
    | step hr hadj hok ih =>
      obtain ⟨p, hw, hl⟩ := ih
      exact ⟨p ++ [_], hw.snoc hadj hok, by simp [hl]⟩
  · rintro ⟨p, hw, hl⟩
    have := hw.toReachN
    rwa [hl, Nat.add_sub_cancel] at this

/-- A distance value exists as soon as any reachability count does. -/
theorem distIs_exists {ok : Cell → Prop} {s v : Cell} {n : Nat}
    (h : ReachN ok s v n) : ∃ k, DistIs ok s v k := by
  classical
  have hne : {m : Nat | ReachN ok s v m}.Nonempty := ⟨n, h⟩
  refine ⟨sInf {m : Nat | ReachN ok s v m}, Nat.sInf_mem hne, ?_⟩
  intro m hm
  exact Nat.sInf_le hm

/-- Distance values are unique. -/
theorem DistIs.unique_dist {ok : Cell → Prop} {s v : Cell} {a b : Nat}
    (ha : DistIs ok s v a) (hb : DistIs ok s v b) : a = b :=
  Nat.le_antisymm (ha.2 b hb.1) (hb.2 a ha.1)

/-- A zero-count reach is the start itself. -/
theorem reachN_zero {ok : Cell → Prop} {s v : Cell} (h : ReachN ok s v 0) : v = s := by
  cases h; rfl

/-! Chain lemmas: the predecessor walks that `reconstruct_path` and the
in-source reconstruction loop follow. -/

theorem Chain.chain_ne_nil {cf : List (Cell × Cell)} {v : Cell} {p : List Cell}
    (h : Chain cf v p) : p ≠ [] := by
  cases h <;> simp

theorem Chain.chain_getLast?_eq {cf : List (Cell × Cell)} {v : Cell} {p : List Cell}
    (h : Chain cf v p) : p.getLast? = some v := by
  cases h with
  | base _ => rfl
  | step hget htail => simp

theorem Chain.head?_base {cf : List (Cell × Cell)} {v : Cell} {p : List Cell}
    (h : Chain cf v p) : ∃ w0, p.head? = some w0 ∧ dictGet? cf w0 = none := by
  induction h with
  | base hget => exact ⟨_, rfl, hget⟩
  | step hget htail ih =>
    obtain ⟨w0, hw0, hg0⟩ := ih
    refine ⟨w0, ?_, hg0⟩
    rename_i v' u p'
    cases p' with
    | nil => exact absurd rfl htail.chain_ne_nil
    | cons x xs => simpa using hw0

theorem Chain.mem_head_of_get_none {cf : List (Cell × Cell)} {v : Cell} {p : List Cell}
    (h : Chain cf v p) : ∀ x ∈ p, dictGet? cf x = none → p.head? = some x := by
  induction h with
  | base hget =>
    intro x hx _
    simp at hx; subst hx; rfl
  | step hget htail ih =>
    rename_i v' u p'
    intro x hx hxget
    rcases List.mem_append.mp hx with h' | h'
    · have := ih x h' hxget
      cases p' with
      | nil => exact absurd rfl htail.chain_ne_nil
      | cons y ys => simpa using this
    · simp at h'
      subst h'
      rw [hget] at hxget
      cases hxget

theorem Chain.unique {cf : List (Cell × Cell)} {v : Cell} {p q : List Cell}
    (h1 : Chain cf v p) (h2 : Chain cf v q) : p = q := by
  induction h1 generalizing q with
  | base hget =>
    cases h2 with
    | base _ => rfl
    | step hget2 htail2 => rw [hget] at hget2; cases hget2
  | step hget htail ih =>
    cases h2 with
    | base hget2 => rw [hget] at hget2; cases hget2
    | step hget2 htail2 =>
      rw [hget] at hget2
      cases hget2
      rw [ih htail2]

theorem Chain.mem_chain {cf : List (Cell × Cell)} {v : Cell} {p : List Cell}
    (h : Chain cf v p) : ∀ x ∈ p, ∃ q t, Chain cf x q ∧ q ++ t = p := by
  induction h with
  | base hget =>
    intro x hx
    simp at hx; subst hx
    exact ⟨[x], [], Chain.base hget, rfl⟩
  | step hget htail ih =>
    rename_i v' u p'
    intro x hx
    rcases List.mem_append.mp hx with h' | h'
    · obtain ⟨q, t, hq, hqt⟩ := ih x h'
      exact ⟨q, t ++ [v'], hq, by rw [← List.append_assoc, hqt]⟩
    · simp at h'
      subst h'
      exact ⟨p' ++ [x], [], Chain.step hget htail, by simp⟩

theorem Chain.nodup {cf : List (Cell × Cell)} {v : Cell} {p : List Cell}
    (h : Chain cf v p) : p.Nodup := by
  induction h with
  | base _ => simp
  | step hget htail ih =>
    rename_i v' u p'
    rw [List.nodup_append]
    refine ⟨ih, List.nodup_singleton _, ?_⟩
    intro x hx hx'
    simp at hx'
    subst hx'
    obtain ⟨q, t, hq, hqt⟩ := htail.mem_chain x hx
    have huniq : q = p' ++ [x] := hq.unique (Chain.step hget htail)
    have hlen : q.length + t.length = p'.length := by
      have := congrArg List.length hqt
      simpa using this
    have : q.length = p'.length + 1 := by simp [huniq]
    omega

theorem isSome_dictGet?_mem_keys {α : Type} {cf : List (Cell × α)} {x : Cell}
    (h : (dictGet? cf x).isSome) : x ∈ cf.map Prod.fst := by
  induction cf with
  | nil => simp [dictGet?] at h
  | cons kv rest ih =>
    by_cases hk : kv.1 = x
    · simp [hk]
    · simp only [dictGet?, hk, if_false] at h
      simp [ih h]

theorem Chain.length_le {cf : List (Cell × Cell)} {v : Cell} {p : List Cell}
    (h : Chain cf v p) : p.length ≤ cf.length + 1 := by
  classical
  obtain ⟨w0, hhead, hget0⟩ := h.head?_base
  cases p with
  | nil => simp
  | cons a rest =>
    have ha : a = w0 := by simpa using hhead
    subst ha
    have hnd : (a :: rest).Nodup := h.nodup
    have hsub : rest ⊆ cf.map Prod.fst := by
      intro x hx
      have hxget : (dictGet? cf x).isSome := by
        by_contra hno
        have : dictGet? cf x = none := Option.not_isSome_iff_eq_none.mp hno
        have := h.mem_head_of_get_none x (List.mem_cons_of_mem _ hx) this
        rw [hhead] at this
        cases this
        exact (List.nodup_cons.mp hnd).1 hx
      exact isSome_dictGet?_mem_keys hxget
    have hrest : rest.length ≤ cf.length := by
      have := (List.subperm_of_subset (List.nodup_cons.mp hnd).2 hsub).length_le
      simpa using this
    simp only [List.length_cons]
    omega

theorem Chain.congr {cf cf' : List (Cell × Cell)} {v : Cell} {p : List Cell}
    (h : Chain cf v p) (heq : ∀ x ∈ p, dictGet? cf' x = dictGet? cf x) :
    Chain cf' v p := by
  induction h with
  | base hget =>
    exact Chain.base ((heq _ (List.mem_singleton_self _)).trans hget)
  | step hget htail ih =>
    rename_i v' u p'
    refine Chain.step ((heq _ (by simp)).trans hget) (ih ?_)
    intro x hx
    exact heq x (List.mem_append.mpr (Or.inl hx))

theorem reconstructGo_eq {cf : List (Cell × Cell)} {v : Cell} {p : List Cell}
    (h : Chain cf v p) :
    ∀ (fuel : Nat) (acc : List Cell), p.length ≤ fuel + 1 →
      reconstructGo cf fuel v acc = p.dropLast ++ acc := by
  induction h with
  | base hget =>
    intro fuel acc _
    cases fuel with
    | zero => rfl
    | succ f => simp [reconstructGo, hget]
  | step hget htail ih =>
    rename_i v' u p'
    intro fuel acc hlen
    have hp' : p' ≠ [] := htail.chain_ne_nil
    have hplen : 0 < p'.length := List.length_pos.mpr hp'
    cases fuel with
    | zero =>
      exfalso
      have : p'.length + 1 ≤ 1 := by simpa using hlen
      omega
    | succ f =>
      simp only [reconstructGo, hget]
      have hlast : p'.getLast hp' = u := by
        have := htail.chain_getLast?_eq
        rwa [List.getLast?_eq_getLast _ hp', Option.some.injEq] at this
      have hstep := ih f (u :: acc) (by simp at hlen; omega)
      rw [hstep, List.dropLast_concat]
      have : p'.dropLast ++ [u] = p' := by
        conv_rhs => rw [← List.dropLast_append_getLast hp']
        rw [hlast]
      rw [← this]
      simp

/-- `reconstruct_path` returns exactly the predecessor walk. -/
theorem reconstruct_path_eq {cf : List (Cell × Cell)} {v : Cell} {p : List Cell}
    (h : Chain cf v p) : reconstruct_path cf v = p := by
  unfold reconstruct_path
  rw [reconstructGo_eq h (cf.length + 1) [v] (by have := h.length_le; omega)]
  have hv : p.getLast? = some v := h.chain_getLast?_eq
  have hp : p ≠ [] := h.chain_ne_nil
  conv_rhs => rw [← List.dropLast_append_getLast hp]
  rw [List.getLast?_eq_getLast _ hp, Option.some.injEq] at hv
  rw [hv]

/-- The in-source reconstruction inside `bfs_path` is the same walk. -/
theorem reconstructGo_inline_eq {cf : List (Cell × Cell)} {v : Cell} {p : List Cell}
    (h : Chain cf v p) : reconstructGo cf (cf.length + 1) v [v] = p := by
  have := reconstruct_path_eq h
  unfold reconstruct_path at this
  exact this

/-! Adjacency facts. -/

theorem Adj.ne {a b : Cell} (h : Adj a b) : b ≠ a := by
  intro he
  subst he
  simp [Adj, dirs, Prod.ext_iff] at h

theorem adj_offset {cur d : Cell} (hd : d ∈ dirs) : Adj cur (cur.1 + d.1, cur.2 + d.2) := by
  unfold Adj
  simpa using hd

/-- A generic fold-preservation helper. -/
theorem foldl_preserve {σ α : Type} {P : σ → Prop} {f : σ → α → σ}
    (hf : ∀ s a, P s → P (f s a)) : ∀ (l : List α) (s : σ), P s → P (l.foldl f s) := by
  intro l
  induction l with
  | nil => intro s hs; exact hs
  | cons a rest ih => intro s hs; exact ih _ (hf s a hs)

/-! A* soundness: invariant initialization, preservation, and the walk
extracted at the goal pop. -/

theorem scoreGet_baseNone (rows cols : Nat) (x : Cell) :
    scoreGet ((allCells rows cols).map fun c => (c, (none : Option Nat))) x = none := by
  by_cases hx : x ∈ allCells rows cols
  · simp [scoreGet, dictGet?_of_mem_map _ _ _ hx]
  · unfold scoreGet
    have : dictGet? ((allCells rows cols).map fun c => (c, (none : Option Nat))) x = none := by
      by_contra hne
      have hs : (dictGet? ((allCells rows cols).map fun c => (c, (none : Option Nat))) x).isSome :=
        Option.isSome_iff_ne_none.mpr hne
      have := isSome_dictGet?_mem_keys hs
      simp only [List.map_map] at this
      simp at this
      exact hx this
    simp [this]

theorem AInv.init (rows cols : Nat) (grid : Grid) (blocked : List Cell) (start goal : Cell) :
    AInv rows cols grid blocked start
      { gscore := dictSet ((allCells rows cols).map fun c => (c, none)) start (some 0),
        fscore := dictSet ((allCells rows cols).map fun c => (c, none)) start
          (some (heuristic start goal)),
        openSet := [(heuristic start goal, 0, start)],
        cameFrom := [], inOpen := [start], counter := 0 } := by
  constructor
  · simp [scoreGet, dictGet?_dictSet_self]
  · intro v u hget
    simp [dictGet?] at hget
  · intro e he
    simp at he
    subst he
    simp [scoreGet, dictGet?_dictSet_self]
  · intro v hv
    by_cases hvs : v = start
    · exact Or.inl hvs
    · exfalso
      rw [scoreGet, dictGet?_dictSet_ne _ _ _ _ hvs] at hv
      have := scoreGet_baseNone rows cols v
      rw [scoreGet] at this
      rw [this] at hv
      cases hv

/-- Relaxation preserves the invariant. -/
theorem AInv.relax {rows cols : Nat} {grid : Grid} {blocked : List Cell} {start : Cell}
    {st : AStarState} (h : AInv rows cols grid blocked start st)
    (goal cur d : Cell) (hd : d ∈ dirs) :
    AInv rows cols grid blocked start (astarRelax rows cols grid goal blocked cur st d) := by
  unfold astarRelax
  by_cases hb : ¬ inBoundsB rows cols (cur.1 + d.1) (cur.2 + d.2)
  · simpa [hb] using h
  · simp only [hb, if_false]
    by_cases hw : gridAt grid (cur.1 + d.1) (cur.2 + d.2) = WALL
    · simpa [hw] using h
    · simp only [hw, if_false]
      by_cases hbl : (cur.1 + d.1, cur.2 + d.2) ∈ blocked
      · simpa [hbl] using h
      · simp only [hbl, if_false]
        set nb : Cell := (cur.1 + d.1, cur.2 + d.2) with hnb
        by_cases hlt : scoreLt (scoreSucc (scoreGet st.gscore cur)) (scoreGet st.gscore nb)
        · simp only [hlt, if_true]
          -- the update really happened: cur has a finite score
          obtain ⟨m, hm⟩ : ∃ m, scoreGet st.gscore cur = some m := by
            cases hcur : scoreGet st.gscore cur with
            | none => rw [hcur] at hlt; simp [scoreSucc, scoreLt] at hlt
            | some m => exact ⟨m, rfl⟩
          rw [hm] at hlt ⊢
          have hnbcur : nb ≠ cur := (adj_offset hd).ne
          have hfree : stepFree rows cols grid blocked nb := by
            refine ⟨⟨?_, hw⟩, hbl⟩
            simpa using not_not.mp hb
          have hnbstart : nb ≠ start := by
            intro he
            rw [he, h.gstart] at hlt
            simp [scoreSucc, scoreLt] at hlt
          -- facts about the updated score dictionary
          have hg_nb : scoreGet (dictSet st.gscore nb (scoreSucc (some m))) nb = some (m + 1) := by
            simp [scoreGet, dictGet?_dictSet_self, scoreSucc]
          have hg_other : ∀ x, x ≠ nb →
              scoreGet (dictSet st.gscore nb (scoreSucc (some m))) x = scoreGet st.gscore x := by
            intro x hx
            simp [scoreGet, dictGet?_dictSet_ne _ _ _ _ hx]
          have hmono : ∀ x n', scoreGet st.gscore x = some n' →
              ∃ n'', scoreGet (dictSet st.gscore nb (scoreSucc (some m))) x = some n'' ∧ n'' ≤ n' := by
            intro x n' hx
            by_cases hxnb : x = nb
            · subst hxnb
              refine ⟨m + 1, hg_nb, ?_⟩
              rw [hx] at hlt
              simp [scoreSucc, scoreLt] at hlt
              omega
            · exact ⟨n', by rw [hg_other x hxnb, hx], le_refl n'⟩
          have hgstart : scoreGet (dictSet st.gscore nb (scoreSucc (some m))) start = some 0 := by
            rw [hg_other start (fun he => hnbstart he.symm), h.gstart]
          have hparent : ∀ v u, dictGet? (dictSet st.cameFrom nb cur) v = some u →
              Adj u v ∧ stepFree rows cols grid blocked v ∧ v ≠ start ∧
                ∃ n' m', scoreGet (dictSet st.gscore nb (scoreSucc (some m))) v = some n' ∧
                  scoreGet (dictSet st.gscore nb (scoreSucc (some m))) u = some m' ∧ m' < n' := by
            intro v u hget
            rw [dictGet?_dictSet] at hget
            by_cases hv : v = nb
            · subst hv
              rw [if_pos rfl] at hget
              cases hget
              refine ⟨adj_offset hd, hfree, hnbstart, m + 1, m, hg_nb, ?_, Nat.lt_succ_self m⟩
              rw [hg_other _ (fun he => hnbcur he.symm), hm]
            · rw [if_neg hv] at hget
              obtain ⟨hadj, hfree', hstart', n', m', hn', hm', hlt'⟩ := h.parent v u hget
              obtain ⟨m'', hm'', hle⟩ := hmono u m' hm'
              refine ⟨hadj, hfree', hstart', n', m'', ?_, hm'', by omega⟩
              rw [hg_other v hv, hn']
          have hkey : ∀ v, (scoreGet (dictSet st.gscore nb (scoreSucc (some m))) v).isSome →
              v = start ∨ (dictGet? (dictSet st.cameFrom nb cur) v).isSome := by
            intro v hv
            by_cases hvnb : v = nb
            · subst hvnb
              right
              simp [dictGet?_dictSet_self]
            · rw [hg_other v hvnb] at hv
              rcases h.finiteKey v hv with h' | h'
              · exact Or.inl h'
              · right
                simp [dictGet?_dictSet, hvnb, h']
          by_cases hio : nb ∈ st.inOpen
          · simp only [hio, if_true]
            refine ⟨hgstart, hparent, ?_, hkey⟩
            intro e he
            simp only at he
            by_cases henb : e.2.2 = nb
            · rw [henb, hg_nb]; rfl
            · rw [hg_other _ henb]
              exact h.openFinite e he
          · simp only [hio, if_false]
            refine ⟨hgstart, hparent, ?_, hkey⟩
            intro e he
            simp only at he
            rcases List.mem_cons.mp he with he' | he'
            · subst he'
              simp only
              rw [hg_nb]; rfl
            · by_cases henb : e.2.2 = nb
              · rw [henb, hg_nb]; rfl
              · rw [hg_other _ henb]
                exact h.openFinite e he'
        · simpa [hlt] using h

/-- Neighbor expansion preserves the invariant. -/
theorem AInv.visit {rows cols : Nat} {grid : Grid} {blocked : List Cell} {start : Cell}
    {st : AStarState} (h : AInv rows cols grid blocked start st) (goal cur : Cell) :
    AInv rows cols grid blocked start (astarVisit rows cols grid goal blocked st cur) := by
  unfold astarVisit
  have : ∀ (l : List Cell), (∀ d ∈ l, d ∈ dirs) →
      ∀ st', AInv rows cols grid blocked start st' →
        AInv rows cols grid blocked start (l.foldl (astarRelax rows cols grid goal blocked cur) st') := by
    intro l
    induction l with
    | nil => intro _ st' h'; exact h'
    | cons a rest ih =>
      intro hsub st' h'
      exact ih (fun d hd => hsub d (List.mem_cons_of_mem _ hd)) _
        (h'.relax goal cur a (hsub a (List.mem_cons_self _ _)))
  exact this dirs (fun d hd => hd) st h

/-- Removing the popped entry preserves the invariant. -/
theorem AInv.pop {rows cols : Nat} {grid : Grid} {blocked : List Cell} {start : Cell}
    {st : AStarState} (h : AInv rows cols grid blocked start st)
    (rest : List HeapEntry) (hrest : ∀ e ∈ rest, e ∈ st.openSet) (cur : Cell) :
    AInv rows cols grid blocked start
      { st with openSet := rest, inOpen := st.inOpen.erase cur } := by
  refine ⟨h.gstart, h.parent, ?_, h.finiteKey⟩
  intro e he
  exact h.openFinite e (hrest e he)

/-- A finite-score cell owns a predecessor chain that is a valid walk from
the start. -/
theorem AInv.chain_of_finite {rows cols : Nat} {grid : Grid} {blocked : List Cell}
    {start : Cell} {st : AStarState} (h : AInv rows cols grid blocked start st) :
    ∀ (n : Nat) (v : Cell), scoreGet st.gscore v = some n →
      ∃ p, Chain st.cameFrom v p ∧ Walk (stepFree rows cols grid blocked) start p v := by
  intro n
  induction n using Nat.strong_induction_on with
  | _ n ih =>
    intro v hv
    by_cases hvs : v = start
    · subst hvs
      have hnone : dictGet? st.cameFrom v = none := by
        cases hget : dictGet? st.cameFrom v with
        | none => rfl
        | some u =>
          obtain ⟨_, _, hne, _⟩ := h.parent v u hget
          exact absurd rfl hne
      exact ⟨[v], Chain.base hnone, Walk.single v⟩
    · rcases h.finiteKey v (by rw [hv]; rfl) with h' | h'
      · exact absurd h' hvs
      · obtain ⟨u, hget⟩ := Option.isSome_iff_exists.mp h'
        obtain ⟨hadj, hfree, _, n', m, hn', hm, hlt⟩ := h.parent v u hget
        rw [hv] at hn'
        cases hn'
        obtain ⟨p, hchain, hwalk⟩ := ih m hlt u hm
        exact ⟨p ++ [v], Chain.step hget hchain, hwalk.snoc hadj hfree⟩

/-- Any path the loop returns is a valid walk from start to goal. -/
theorem astarLoop_sound {rows cols : Nat} {grid : Grid} {blocked : List Cell}
    {start goal : Cell} :
    ∀ (fuel : Nat) (st : AStarState), AInv rows cols grid blocked start st →
      ∀ {p : List Cell}, astarLoop rows cols grid goal blocked fuel st = some p →
        Walk (stepFree rows cols grid blocked) start p goal := by
  intro fuel
  induction fuel with
  | zero => intro st _ p hp; cases hp
  | succ f ih =>
    intro st hinv p hp
    unfold astarLoop at hp
    cases hpop : heapPop st.openSet with
    | none => rw [hpop] at hp; cases hp
    | some popped =>
      obtain ⟨⟨k, c, cur⟩, rest⟩ := popped
      rw [hpop] at hp
      simp only at hp
      obtain ⟨hmem, hrest⟩ := heapPop_mem hpop
      by_cases hgoal : cur = goal
      · rw [if_pos hgoal] at hp
        subst hgoal
        have hfin := hinv.openFinite _ hmem
        simp only at hfin
        obtain ⟨n, hn⟩ := Option.isSome_iff_exists.mp hfin
        obtain ⟨pc, hchain, hwalk⟩ := hinv.chain_of_finite n cur hn
        have : reconstruct_path st.cameFrom cur = pc := reconstruct_path_eq hchain
        simp only [this] at hp
        cases hp
        exact hwalk
      · rw [if_neg hgoal] at hp
        refine ih _ ?_ hp
        have hsub : ∀ e ∈ rest, e ∈ st.openSet := by
          intro e he
          rw [hrest] at he
          exact List.mem_of_mem_erase he
        exact (hinv.pop rest hsub cur).visit goal cur

/-- `astar` only returns valid walks from start to goal (the start cell
itself is never validated). -/
theorem astar_sound {rows cols : Nat} {grid : Grid} {blocked : List Cell}
    {start goal : Cell} {p : List Cell}
    (h : astar rows cols grid (some start) (some goal) blocked = some p) :
    Walk (stepFree rows cols grid blocked) start p goal := by
  unfold astar at h
  exact astarLoop_sound _ _ (AInv.init rows cols grid blocked start goal) h

/-- The end of a walk is either the start or a validated cell. -/
theorem Walk.end_ok {ok : Cell → Prop} {s z : Cell} {p : List Cell}
    (h : Walk ok s p z) : z = s ∨ ok z := by
  induction h with
  | single a => exact Or.inl rfl
  | cons hadj hok htail ih =>
    rcases ih with h' | h'
    · subst h'; exact Or.inr hok
    · exact Or.inr h'

/-- Coinciding defined endpoints make `astar` return `[start]` on the first
iteration. -/
theorem astar_self (rows cols : Nat) (grid : Grid) (blocked : List Cell) (start : Cell) :
    astar rows cols grid (some start) (some start) blocked = some [start] := by
  obtain ⟨f, hf⟩ : ∃ f, astarFuel rows cols = f + 1 := by
    have : astarFuel rows cols ≠ 0 := by
      unfold astarFuel
      exact Nat.mul_ne_zero (by omega) (by omega)
    exact ⟨astarFuel rows cols - 1, by omega⟩
  unfold astar
  rw [hf]
  simp [astarLoop, heapPop, heapMinFrom, reconstruct_path, reconstructGo, dictGet?]

/-- C9: if `astar` returns a path, its first element is the start, its last
is the goal, consecutive elements are 4-adjacent, and every element other
than the start is in bounds, not a wall, and not blocked; the start cell is
never validated, as shown by two bundled runs whose returned paths begin at
a walled, blocked start and at an out-of-bounds, blocked start. -/
theorem astar_returned_path_valid :
    (∀ (rows cols : Nat) (grid : Grid) (start goal : Cell) (blocked : List Cell)
        (p : List Cell),
      astar rows cols grid (some start) (some goal) blocked = some p →
        p.head? = some start ∧ p.getLast? = some goal ∧ List.Chain' Adj p ∧
          ∀ v ∈ p.tail, stepFree rows cols grid blocked v) ∧
    astar 1 2 [[WALL, EMPTY]] (some (0, 0)) (some (0, 1)) [(0, 0)] =
      some [(0, 0), (0, 1)] ∧
    astar 1 1 [[EMPTY]] (some (-1, 0)) (some (0, 0)) [(-1, 0)] =
      some [(-1, 0), (0, 0)] := by
  refine ⟨?_, by decide, by decide⟩
  intro rows cols grid start goal blocked p h
  have hw := astar_sound h
  exact ⟨hw.head?_eq, hw.getLast?_eq, hw.chain'_adj, hw.tail_ok⟩

/-- Witness for C9 at a concrete run on an all-empty 2×2 grid. -/
theorem astar_returned_path_valid_witness :
    ([(0, 0), (1, 0), (1, 1)] : List Cell).head? = some (0, 0) ∧
    ([(0, 0), (1, 0), (1, 1)] : List Cell).getLast? = some (1, 1) ∧
    List.Chain' Adj [(0, 0), (1, 0), (1, 1)] ∧
    ∀ v ∈ ([(0, 0), (1, 0), (1, 1)] : List Cell).tail, stepFree 2 2 (make_grid 2 2) [] v :=
  astar_returned_path_valid.1 2 2 (make_grid 2 2) (0, 0) (1, 1) [] _ (by decide)

/-- C8: `astar` returns `None` when either endpoint is undefined, returns
the one-cell path `[start]` when the defined endpoints coincide, and
returns `None` when no valid walk from start to goal exists. -/
theorem astar_degenerate_inputs :
    (∀ (rows cols : Nat) (grid : Grid) (blocked : List Cell) (goal : Option Cell),
      astar rows cols grid none goal blocked = none) ∧
    (∀ (rows cols : Nat) (grid : Grid) (blocked : List Cell) (start : Option Cell),
      astar rows cols grid start none blocked = none) ∧
    (∀ (rows cols : Nat) (grid : Grid) (blocked : List Cell) (start : Cell),
      astar rows cols grid (some start) (some start) blocked = some [start]) ∧
    (∀ (rows cols : Nat) (grid : Grid) (blocked : List Cell) (start goal : Cell),
      (∀ p, ¬ Walk (stepFree rows cols grid blocked) start p goal) →
        astar rows cols grid (some start) (some goal) blocked = none) := by
  refine ⟨?_, ?_, ?_, ?_⟩
  · intro rows cols grid blocked goal
    cases goal <;> rfl
  · intro rows cols grid blocked start
    cases start <;> rfl
  · intro rows cols grid blocked start
    exact astar_self rows cols grid blocked start
  · intro rows cols grid blocked start goal hno
    cases hres : astar rows cols grid (some start) (some goal) blocked with
    | none => rfl
    | some p => exact ((hno p) (astar_sound hres)).elim

/-- Witness for C8: a goal standing on a wall is unreachable and `astar`
returns `None` there; the coincident-endpoint case returns `[start]`. -/
theorem astar_degenerate_inputs_witness :
    astar 1 2 [[EMPTY, WALL]] (some (0, 0)) (some (0, 1)) [] = none ∧
    astar 1 2 [[EMPTY, WALL]] (some (0, 0)) (some (0, 0)) [] = some [(0, 0)] := by
  constructor
  · refine astar_degenerate_inputs.2.2.2 1 2 [[EMPTY, WALL]] [] (0, 0) (0, 1) ?_
    intro p hw
    rcases hw.end_ok with h | h
    · cases h
    · exact absurd h.1.2 (by decide)
  · exact astar_degenerate_inputs.2.2.1 1 2 [[EMPTY, WALL]] [] (0, 0)

/-- C1 (failing input): on the concrete 7×10 grid `mazeC1` with mutually
reachable endpoints and no blocked cells, `astar` returns a 19-cell path
while a 17-cell walk over non-wall cells exists in both directions, so the
returned length is not the shortest distance plus one; the spec's 5×5
all-empty scenario itself does hold with 9 cells. -/
theorem astar_suboptimal_on_mazeC1 :
    (astar 7 10 mazeC1 (some (5, 9)) (some (0, 0)) []).map List.length = some 19 ∧
    (pathC1.head? = some (5, 9) ∧ pathC1.getLast? = some (0, 0) ∧
      List.Chain' Adj pathC1 ∧ (∀ v ∈ pathC1, stepOK 7 10 mazeC1 v) ∧
      pathC1.length = 17) ∧
    (pathC1.reverse.head? = some (0, 0) ∧ pathC1.reverse.getLast? = some (5, 9) ∧
      List.Chain' Adj pathC1.reverse ∧ ∀ v ∈ pathC1.reverse, stepOK 7 10 mazeC1 v) ∧
    (astar 5 5 (make_grid 5 5) (some (0, 0)) (some (4, 4)) []).map List.length = some 9 := by
  have hrev : pathC1.reverse =
      [(0, 0), (1, 0), (2, 0), (3, 0), (3, 1), (3, 2), (3, 3), (4, 3), (5, 3), (6, 3),
       (6, 4), (6, 5), (6, 6), (6, 7), (6, 8), (6, 9), (5, 9)] := by decide
  refine ⟨by decide, ⟨by decide, by decide, ?_, by decide, by decide⟩,
    ⟨by decide, by decide, ?_, by decide⟩, by decide⟩
  · simp only [pathC1, List.chain'_cons, List.chain'_singleton]
    decide
  · rw [hrev]
    simp only [List.chain'_cons, List.chain'_singleton]
    decide

/-! Tick-phase bookkeeping lemmas. -/

/-- Fields the seeker block never writes. -/
theorem pacPhase_const (s : GState) (now : Nat) :
    (pacPhase s now).ghostPositions = s.ghostPositions ∧
    (pacPhase s now).grid = s.grid ∧
    (pacPhase s now).goal = s.goal ∧
    (pacPhase s now).lastGhostMoveTime = s.lastGhostMoveTime := by
  unfold pacPhase
  split
  · dsimp only
    split
    · exact ⟨rfl, rfl, rfl, rfl⟩
    · split
      · exact ⟨rfl, rfl, rfl, rfl⟩
      · split <;> split <;> exact ⟨rfl, rfl, rfl, rfl⟩
  · exact ⟨rfl, rfl, rfl, rfl⟩

/-- The seeker block keeps the agent defined. -/
theorem pacPhase_pac_some (s : GState) (now : Nat) (h : s.pacPos ≠ none) :
    (pacPhase s now).pacPos ≠ none := by
  unfold pacPhase
  split
  · dsimp only
    split
    · exact h
    · split
      · exact h
      · split <;> split <;> simp
  · exact h

/-- Fields the pursuer block never writes. -/
theorem ghostPhase_const (s : GState) (now : Nat) :
    (ghostPhase s now).grid = s.grid ∧
    (ghostPhase s now).goal = s.goal ∧
    (ghostPhase s now).pacPos = s.pacPos ∧
    (ghostPhase s now).rewardCells = s.rewardCells ∧
    (ghostPhase s now).playing = s.playing ∧
    (ghostPhase s now).gameOver = s.gameOver ∧
    (ghostPhase s now).reason = s.reason ∧
    (ghostPhase s now).score = s.score ∧
    (ghostPhase s now).finalScore = s.finalScore ∧
    (ghostPhase s now).endTime = s.endTime := by
  unfold ghostPhase
  split_ifs <;> exact ⟨rfl, rfl, rfl, rfl, rfl, rfl, rfl, rfl, rfl, rfl⟩

/-- Fields the collision test never writes. -/
theorem collisionPhase_const (s : GState) (now2 : Nat) :
    (collisionPhase s now2).grid = s.grid ∧
    (collisionPhase s now2).goal = s.goal ∧
    (collisionPhase s now2).pacPos = s.pacPos ∧
    (collisionPhase s now2).ghostPositions = s.ghostPositions ∧
    (collisionPhase s now2).rewardCells = s.rewardCells ∧
    (collisionPhase s now2).score = s.score := by
  unfold collisionPhase
  split
  · split <;> exact ⟨rfl, rfl, rfl, rfl, rfl, rfl⟩
  · exact ⟨rfl, rfl, rfl, rfl, rfl, rfl⟩

/-- The guarded tick unfolds into the three phases. -/
theorem gameTick_eq_phases (s : GState) (now now2 : Nat)
    (hplay : s.playing = true) (hover : s.gameOver = false) (hpac : s.pacPos ≠ none) :
    gameTick s now now2 = collisionPhase (ghostPhase (pacPhase s now) now) now2 := by
  unfold gameTick
  rw [if_pos ⟨hplay, hover, hpac⟩]

/-- The collision test fires exactly on a pursuer/agent coincidence. -/
theorem collisionPhase_hit (s : GState) (now2 : Nat) (p : Cell)
    (hp : s.pacPos = some p) (hne : s.ghostPositions ≠ []) (hmem : p ∈ s.ghostPositions) :
    (collisionPhase s now2).gameOver = true ∧
    (collisionPhase s now2).reason = some "ghost" ∧
    (collisionPhase s now2).finalScore = some s.score ∧
    (collisionPhase s now2).endTime = some now2 ∧
    (collisionPhase s now2).playing = false := by
  unfold collisionPhase
  rw [hp]
  have hc : s.ghostPositions ≠ [] ∧ p ∈ s.ghostPositions := ⟨hne, hmem⟩
  dsimp only
  rw [if_pos hc]
  exact ⟨rfl, rfl, rfl, rfl, rfl⟩

/-- The collision test is the identity when the agent stands on no
pursuer. -/
theorem collisionPhase_miss (s : GState) (now2 : Nat)
    (h : ∀ p, s.pacPos = some p → p ∉ s.ghostPositions) :
    collisionPhase s now2 = s := by
  unfold collisionPhase
  cases hp : s.pacPos with
  | none => rfl
  | some p =>
    dsimp only
    rw [if_neg ?_]
    rintro ⟨-, hmem⟩
    exact h p hp hmem

/-- The pursuer block advances every pursuer by its planner step when its
guard holds. -/
theorem ghostPhase_moves (s : GState) (now : Nat)
    (hne : s.ghostPositions ≠ []) (hpac : s.pacPos ≠ none)
    (hdue : now - s.lastGhostMoveTime ≥ GHOST_MOVE_INTERVAL) :
    (ghostPhase s now).ghostPositions = s.ghostPositions.map (ghostStep s.grid s.pacPos) := by
  unfold ghostPhase
  rw [if_pos ⟨hne, hpac, hdue⟩]

/-- C3: whenever a pursuer's planned step lands exactly on the agent's cell
in a pursuer-move tick of a running state, the tick ends as the ghost
(caught) terminal and not as the win terminal, regardless of what the
seeker step produced earlier in the same tick. -/
theorem pursuer_landing_is_caught (s : GState) (now now2 : Nat)
    (hplay : s.playing = true) (hover : s.gameOver = false) (hpac : s.pacPos ≠ none)
    (hdue : now - s.lastGhostMoveTime ≥ GHOST_MOVE_INTERVAL)
    (p' : Cell) (hpac' : (pacPhase s now).pacPos = some p')
    (g : Cell) (hg : g ∈ s.ghostPositions)
    (hstep : ghostStep s.grid (pacPhase s now).pacPos g = p') :
    (gameTick s now now2).gameOver = true ∧
    (gameTick s now now2).reason = some "ghost" ∧
    (gameTick s now now2).reason ≠ some "win" := by
  obtain ⟨hcg, hcgrid, -, hclast⟩ := pacPhase_const s now
  set t := pacPhase s now with ht
  have hne : t.ghostPositions ≠ [] := by
    rw [hcg]
    intro he
    rw [he] at hg
    cases hg
  have htpac : t.pacPos ≠ none := by rw [hpac']; simp
  have hmoves : (ghostPhase t now).ghostPositions =
      t.ghostPositions.map (ghostStep t.grid t.pacPos) := by
    refine ghostPhase_moves t now hne htpac ?_
    rw [hclast]
    exact hdue
  have hmem : p' ∈ (ghostPhase t now).ghostPositions := by
    rw [hmoves, hcg, hcgrid]
    exact List.mem_map.mpr ⟨g, hg, hstep⟩
  have hne' : (ghostPhase t now).ghostPositions ≠ [] := by
    intro he
    rw [he] at hmem
    cases hmem
  have hpacg : (ghostPhase t now).pacPos = some p' := by
    rw [(ghostPhase_const t now).2.2.1, hpac']
  rw [gameTick_eq_phases s now now2 hplay hover hpac, ← ht]
  obtain ⟨h1, h2, -, -, -⟩ := collisionPhase_hit (ghostPhase t now) now2 p' hpacg hne' hmem
  refine ⟨h1, h2, ?_⟩
  rw [h2]
  decide

/-- Witness for C3: the agent wins by stepping onto the goal, yet the
pursuer at distance two steps onto the same cell in the same tick and the
outcome is the caught terminal. -/
theorem pursuer_landing_is_caught_witness :
    (gameTick stateWinThenCaught 1000 1001).gameOver = true ∧
    (gameTick stateWinThenCaught 1000 1001).reason = some "ghost" ∧
    (gameTick stateWinThenCaught 1000 1001).reason ≠ some "win" :=
  pursuer_landing_is_caught stateWinThenCaught 1000 1001 rfl rfl (by decide)
    (by decide) (0, 2) (by decide) (0, 3) (by decide) (by decide)

/-- C5: on a due seeker tick, when the re-planned path is missing or has
fewer than two cells, the seeker block ends the game as stuck, fixes the
final score to the current score and freezes the end timestamp at the tick
time, without moving the agent. -/
theorem seeker_short_path_is_stuck (s : GState) (now : Nat)
    (hplay : s.playing = true) (hover : s.gameOver = false)
    (hdue : now - s.lastPacMoveTime ≥ PAC_MOVE_INTERVAL)
    (hshort : ∀ p, astar ROWS COLS s.grid s.pacPos s.goal s.ghostPositions = some p →
      p.length < 2) :
    (pacPhase s now).gameOver = true ∧
    (pacPhase s now).reason = some "stuck" ∧
    (pacPhase s now).finalScore = some s.score ∧
    (pacPhase s now).endTime = some now ∧
    (pacPhase s now).playing = false ∧
    (pacPhase s now).pacPos = s.pacPos := by
  unfold pacPhase
  simp only [if_pos hdue]
  cases hres : astar ROWS COLS s.grid s.pacPos s.goal s.ghostPositions with
  | none => simp [hres]
  | some p =>
    have hlt := hshort p hres
    simp [hres, hlt]

/-- C2 counterexample: in `stateWinThenCaught` the seeker step wins the
game, yet the pursuer block still runs in the same tick — the pursuer
advances onto the agent's cell and the collision test overwrites the win
reason and the end timestamp of the very same tick. -/
theorem tick_overwrites_seeker_win :
    (pacPhase stateWinThenCaught 1000).gameOver = true ∧
    (pacPhase stateWinThenCaught 1000).reason = some "win" ∧
    (pacPhase stateWinThenCaught 1000).endTime = some 1000 ∧
    (gameTick stateWinThenCaught 1000 1001).reason = some "ghost" ∧
    (gameTick stateWinThenCaught 1000 1001).endTime = some 1001 ∧
    (gameTick stateWinThenCaught 1000 1001).ghostPositions ≠
      stateWinThenCaught.ghostPositions :=
  ⟨by decide, by decide, by decide, by decide, by decide, by decide⟩

/-- C2 amended: the pursuer block runs whenever its own guard holds —
nonempty pursuer list, defined agent, elapsed pursuer interval — regardless
of any terminal state the seeker block produced earlier in the same tick;
pursuers then advance exactly by their planner steps, and the seeker step's
terminal data survive the tick only when no pursuer ends on the agent's
cell. -/
theorem tick_pursuer_block_ignores_seeker_terminal (s : GState) (now now2 : Nat)
    (hplay : s.playing = true) (hover : s.gameOver = false) (hpac : s.pacPos ≠ none)
    (hgne : s.ghostPositions ≠ [])
    (hgdue : now - s.lastGhostMoveTime ≥ GHOST_MOVE_INTERVAL) :
    (gameTick s now now2).ghostPositions =
      s.ghostPositions.map (ghostStep s.grid (pacPhase s now).pacPos) ∧
    ((∀ pp, (pacPhase s now).pacPos = some pp →
        pp ∉ s.ghostPositions.map (ghostStep s.grid (pacPhase s now).pacPos)) →
      (gameTick s now now2).reason = (pacPhase s now).reason ∧
      (gameTick s now now2).endTime = (pacPhase s now).endTime ∧
      (gameTick s now now2).finalScore = (pacPhase s now).finalScore ∧
      (gameTick s now now2).gameOver = (pacPhase s now).gameOver) := by
  obtain ⟨hcg, hcgrid, -, hclast⟩ := pacPhase_const s now
  set t := pacPhase s now with ht
  have hne : t.ghostPositions ≠ [] := by rw [hcg]; exact hgne
  have htpac : t.pacPos ≠ none := pacPhase_pac_some s now hpac
  have hmoves : (ghostPhase t now).ghostPositions =
      t.ghostPositions.map (ghostStep t.grid t.pacPos) := by
    refine ghostPhase_moves t now hne htpac ?_
    rw [hclast]; exact hgdue
  have hmap : (ghostPhase t now).ghostPositions =
      s.ghostPositions.map (ghostStep s.grid t.pacPos) := by
    rw [hmoves, hcg, hcgrid]
  rw [gameTick_eq_phases s now now2 hplay hover hpac, ← ht]
  constructor
  · rw [(collisionPhase_const (ghostPhase t now) now2).2.2.2.1, hmap]
  · intro hnocol
    have hmiss : collisionPhase (ghostPhase t now) now2 = ghostPhase t now := by
      refine collisionPhase_miss (ghostPhase t now) now2 ?_
      intro pp hpp
      rw [(ghostPhase_const t now).2.2.1] at hpp
      rw [hmap]
      exact hnocol pp hpp
    rw [hmiss]
    obtain ⟨-, -, -, -, -, -, hr, -, hf, he⟩ := ghostPhase_const t now
    exact ⟨hr, he, hf, (ghostPhase_const t now).2.2.2.2.2.1⟩

/-- Witness for the amended C2: the seeker wins, the distant pursuer still
advances in the same tick, and with no collision the win terminal data
survive. -/
theorem tick_pursuer_block_ignores_seeker_terminal_witness :
    (gameTick stateWinGhostFar 1000 1001).ghostPositions =
      stateWinGhostFar.ghostPositions.map
        (ghostStep stateWinGhostFar.grid (pacPhase stateWinGhostFar 1000).pacPos) ∧
    (gameTick stateWinGhostFar 1000 1001).reason = (pacPhase stateWinGhostFar 1000).reason := by
  have h := tick_pursuer_block_ignores_seeker_terminal stateWinGhostFar 1000 1001 rfl rfl
    (by decide) (by decide) (by decide)
  refine ⟨h.1, ?_⟩
  have hpp : (pacPhase stateWinGhostFar 1000).pacPos = some (0, 2) := by decide
  refine (h.2 ?_).1
  intro pp hpp'
  rw [hpp] at hpp'
  cases hpp'
  decide

/-- The seeker block either leaves the reward set alone or removes exactly
the agent's arrival cell. -/
theorem pacPhase_rewards (s : GState) (now : Nat) :
    (pacPhase s now).rewardCells = s.rewardCells ∨
    ∃ r, (pacPhase s now).pacPos = some r ∧
      (pacPhase s now).rewardCells = s.rewardCells.erase r := by
  unfold pacPhase
  split
  · dsimp only
    split
    · exact Or.inl rfl
    · split
      · exact Or.inl rfl
      · rename_i p hp hlen
        right
        refine ⟨p.getD 1 (0, 0), ?_⟩
        by_cases hmem : p.getD 1 (0, 0) ∈ s.rewardCells
        · rw [if_pos hmem]
          split <;> exact ⟨rfl, rfl⟩
        · rw [if_neg hmem]
          have : s.rewardCells = s.rewardCells.erase (p.getD 1 (0, 0)) :=
            (Finset.erase_eq_of_not_mem hmem).symm
          split <;> exact ⟨rfl, this⟩
  · exact Or.inl rfl

/-- C7: a seeker advance onto a reward cell removes exactly that cell from
the reward set and raises the score by one, after which the cell is no
longer in the set; moreover across every tick the reward set never grows,
and in a running tick it changes at most by removal of the agent's arrival
cell. -/
theorem seeker_reward_collection (s : GState) (now now2 : Nat)
    (hplay : s.playing = true) (hover : s.gameOver = false)
    (hdue : now - s.lastPacMoveTime ≥ PAC_MOVE_INTERVAL)
    (p : List Cell) (hastar : astar ROWS COLS s.grid s.pacPos s.goal s.ghostPositions = some p)
    (hlen : ¬ p.length < 2) (q : Cell) (hq : p.getD 1 (0, 0) = q)
    (hmem : q ∈ s.rewardCells) :
    (pacPhase s now).score = s.score + 1 ∧
    (pacPhase s now).rewardCells = s.rewardCells.erase q ∧
    q ∉ (pacPhase s now).rewardCells ∧
    (gameTick s now now2).score = s.score + 1 ∧
    (gameTick s now now2).rewardCells = s.rewardCells.erase q ∧
    (∀ (s' : GState) (n1 n2 : Nat), (gameTick s' n1 n2).rewardCells ⊆ s'.rewardCells) ∧
    (∀ (s' : GState) (n1 n2 : Nat),
      (gameTick s' n1 n2).rewardCells = s'.rewardCells ∨
      ∃ r, (gameTick s' n1 n2).pacPos = some r ∧
        (gameTick s' n1 n2).rewardCells = s'.rewardCells.erase r) := by
  have hpacne : s.pacPos ≠ none := by
    intro h0
    rw [h0] at hastar
    cases s.goal <;> simp [astar] at hastar
  have hsplit : ∀ (s' : GState) (n1 n2 : Nat),
      ((gameTick s' n1 n2).rewardCells = (pacPhase s' n1).rewardCells ∧
       (gameTick s' n1 n2).score = (pacPhase s' n1).score ∧
       (gameTick s' n1 n2).pacPos = (pacPhase s' n1).pacPos) ∨
      gameTick s' n1 n2 = s' := by
    intro s' n1 n2
    unfold gameTick
    split
    · left
      obtain ⟨-, -, hgp, hgr, -, -, -, hgs, -, -⟩ := ghostPhase_const (pacPhase s' n1) n1
      obtain ⟨-, -, hcp, -, hcr, hcs⟩ :=
        collisionPhase_const (ghostPhase (pacPhase s' n1) n1) n2
      exact ⟨hcr.trans hgr, hcs.trans hgs, hcp.trans hgp⟩
    · exact Or.inr rfl
  have hph : (pacPhase s now).score = s.score + 1 ∧
      (pacPhase s now).rewardCells = s.rewardCells.erase q ∧
      (pacPhase s now).pacPos = some q := by
    unfold pacPhase
    rw [if_pos hdue]
    dsimp only
    rw [hastar]
    try dsimp only
    rw [if_neg hlen]
    try dsimp only
    rw [hq, if_pos hmem]
    split <;> exact ⟨rfl, rfl, rfl⟩
  have hguard : s.playing = true ∧ s.gameOver = false ∧ s.pacPos ≠ none :=
    ⟨hplay, hover, hpacne⟩
  have htick : gameTick s now now2 = collisionPhase (ghostPhase (pacPhase s now) now) now2 :=
    gameTick_eq_phases s now now2 hplay hover hpacne
  have htickr : (gameTick s now now2).rewardCells = (pacPhase s now).rewardCells := by
    rw [htick]
    rw [(collisionPhase_const (ghostPhase (pacPhase s now) now) now2).2.2.2.2.1]
    exact (ghostPhase_const (pacPhase s now) now).2.2.2.1
  have hticks : (gameTick s now now2).score = (pacPhase s now).score := by
    rw [htick]
    rw [(collisionPhase_const (ghostPhase (pacPhase s now) now) now2).2.2.2.2.2]
    exact (ghostPhase_const (pacPhase s now) now).2.2.2.2.2.2.2.1
  refine ⟨hph.1, hph.2.1, ?_, ?_, ?_, ?_, ?_⟩
  · rw [hph.2.1]
    exact Finset.not_mem_erase q s.rewardCells
  · rw [hticks, hph.1]
  · rw [htickr, hph.2.1]
  · intro s' n1 n2
    rcases hsplit s' n1 n2 with ⟨hr, -, -⟩ | he
    · rw [hr]
      rcases pacPhase_rewards s' n1 with h' | ⟨r, -, h'⟩
      · rw [h']
      · rw [h']
        exact Finset.erase_subset _ _
    · rw [he]
  · intro s' n1 n2
    rcases hsplit s' n1 n2 with ⟨hr, -, hp⟩ | he
    · rcases pacPhase_rewards s' n1 with h' | ⟨r, hrp, h'⟩
      · exact Or.inl (hr.trans h')
      · exact Or.inr ⟨r, hp.trans hrp, hr.trans h'⟩
    · exact Or.inl (by rw [he])

/-- Witness for C7: the agent advances onto the reward at `(0, 2)`,
collects it, and the reward set afterwards no longer holds the cell. -/
theorem seeker_reward_collection_witness :
    (pacPhase stateRewardAhead 1000).score = stateRewardAhead.score + 1 ∧
    (pacPhase stateRewardAhead 1000).rewardCells = stateRewardAhead.rewardCells.erase (0, 2) ∧
    (0, 2) ∉ (pacPhase stateRewardAhead 1000).rewardCells := by
  have h := seeker_reward_collection stateRewardAhead 1000 1001 rfl rfl (by decide)
    [(0, 1), (0, 2), (0, 3)] (by decide) (by decide) (0, 2) (by decide) (by decide)
  exact ⟨h.1, h.2.1, h.2.2.1⟩

/-! Loader lemmas: reading and writing well-formed grids, flattening the
two nested loader loops into one stream, and characterizing each result
field of `load_level` over that stream. -/

theorem int_toNat_inj {a b : Int} (ha : 0 ≤ a) (hb : 0 ≤ b) (h : a.toNat = b.toNat) :
    a = b := by
  omega

theorem inBoundsB_iff {rows cols : Nat} {r c : Int} :
    inBoundsB rows cols r c = true ↔
      0 ≤ r ∧ r < (rows : Int) ∧ 0 ≤ c ∧ c < (cols : Int) := by
  unfold inBoundsB
  simp [and_assoc]

theorem gridShape_make : gridShape (make_grid ROWS COLS) := by
  constructor
  · simp [make_grid]
  · intro row hrow
    rw [List.eq_of_mem_replicate hrow]
    simp

theorem getD_default_of_le {α : Type} (l : List α) (i : Nat) (d : α) (h : l.length ≤ i) :
    l.getD i d = d := by
  unfold List.getD
  rw [List.get?_eq_none.mpr h]
  rfl

theorem getD_set_self {α : Type} (l : List α) (i : Nat) (h : i < l.length) (a d : α) :
    (l.set i a).getD i d = a := by
  rw [List.getD_eq_getElem _ d (by simpa using h)]
  exact List.getElem_set_self (by simpa using h)

theorem getD_set_ne {α : Type} (l : List α) (i j : Nat) (hne : i ≠ j) (a d : α) :
    (l.set i a).getD j d = l.getD j d := by
  by_cases hj : j < l.length
  · rw [List.getD_eq_getElem _ d (by simpa using hj), List.getD_eq_getElem _ d hj]
    exact List.getElem_set_ne hne _
  · rw [getD_default_of_le _ _ _ (by rw [List.length_set]; omega),
      getD_default_of_le _ _ _ (by omega)]

theorem gridShape_set (g : Grid) (h : gridShape g) (r c : Int)
    (hin : inBoundsB ROWS COLS r c = true) (v : Nat) :
    gridShape (gridSet g r c v) := by
  obtain ⟨h0r, hr, h0c, hc⟩ := inBoundsB_iff.mp hin
  obtain ⟨hlen, hrows⟩ := h
  have hrn : r.toNat < g.length := by omega
  refine ⟨by simp [gridSet, hlen], ?_⟩
  intro row hrow
  rcases List.mem_or_eq_of_mem_set hrow with h' | h'
  · exact hrows row h'
  · subst h'
    rw [List.length_set]
    refine hrows _ ?_
    rw [List.getD_eq_getElem _ _ hrn]
    exact List.getElem_mem _

theorem grid_row_len (g : Grid) (hsh : gridShape g) (rn : Nat) (hrn : rn < g.length) :
    (g.getD rn []).length = COLS := by
  refine hsh.2 _ ?_
  rw [List.getD_eq_getElem _ _ hrn]
  exact List.getElem_mem _

theorem gridAt_gridSet_self (g : Grid) (hsh : gridShape g) (r c : Int)
    (hin : inBoundsB ROWS COLS r c = true) (v : Nat) :
    gridAt (gridSet g r c v) r c = v := by
  obtain ⟨h0r, hr, h0c, hc⟩ := inBoundsB_iff.mp hin
  have hrn : r.toNat < g.length := by rw [hsh.1]; unfold ROWS at hr ⊢; omega
  have hcn : c.toNat < (g.getD r.toNat []).length := by
    rw [grid_row_len g hsh _ hrn]; unfold COLS at hc ⊢; omega
  unfold gridAt gridSet
  rw [getD_set_self g r.toNat hrn _ _]
  exact getD_set_self _ c.toNat hcn v EMPTY

theorem gridAt_gridSet_ne (g : Grid) (hsh : gridShape g) (r c : Int)
    (hin : inBoundsB ROWS COLS r c = true) (r' c' : Int)
    (hin' : inBoundsB ROWS COLS r' c' = true) (hne : (r', c') ≠ (r, c)) (v : Nat) :
    gridAt (gridSet g r c v) r' c' = gridAt g r' c' := by
  obtain ⟨h0r, hr, h0c, hc⟩ := inBoundsB_iff.mp hin
  obtain ⟨h0r', hr', h0c', hc'⟩ := inBoundsB_iff.mp hin'
  have hrn : r.toNat < g.length := by rw [hsh.1]; unfold ROWS at hr ⊢; omega
  unfold gridAt gridSet
  by_cases hrr : r'.toNat = r.toNat
  · have hreq : r' = r := int_toNat_inj h0r' h0r hrr
    have hcc : c'.toNat ≠ c.toNat := by
      intro hceq
      exact hne (by rw [hreq, int_toNat_inj h0c' h0c hceq])
    rw [hrr, getD_set_self g r.toNat hrn _ []]
    exact getD_set_ne _ c.toNat c'.toNat (fun hh => hcc hh.symm) v EMPTY
  · rw [getD_set_ne g r.toNat r'.toNat (fun hh => hrr hh.symm) _ []]

theorem foldl_flatMap {α β σ : Type} (L : List α) (g : α → List β) (f : σ → β → σ)
    (a : σ) : (L.flatMap g).foldl f a = L.foldl (fun acc x => (g x).foldl f acc) a := by
  induction L generalizing a with
  | nil => rfl
  | cons x rest ih =>
    rw [List.flatMap_cons, List.foldl_append, ih, List.foldl_cons]

theorem load_eq_charFold (lines : List (List Char)) (h : lines ≠ []) :
    load_level lines = (charsOf lines).foldl (procStep (levelOffset lines)) emptyLevel := by
  unfold load_level
  rw [if_neg h]
  unfold charsOf
  rw [foldl_flatMap]
  congr 1
  funext acc rl
  rw [List.foldl_map]
  rfl

theorem mem_charsOf {lines : List (List Char)} {r c : Nat} {ch : Char} :
    (r, c, ch) ∈ charsOf lines ↔
      r < lines.length ∧ c < (lines.getD r []).length ∧
        (lines.getD r []).getD c ' ' = ch := by
  unfold charsOf
  rw [List.mem_flatMap]
  constructor
  · rintro ⟨rl, hrl, ht⟩
    rw [List.mem_map] at ht
    obtain ⟨cch, hcch, hteq⟩ := ht
    simp only [Prod.ext_iff] at hteq
    obtain ⟨h1, h2, h3⟩ := hteq
    subst h1
    subst h2
    subst h3
    rw [List.mem_enum_iff_get?] at hrl hcch
    obtain ⟨hrlt, hrv⟩ := List.get?_eq_some.mp hrl
    obtain ⟨hclt, hcv⟩ := List.get?_eq_some.mp hcch
    have hline : lines.getD rl.1 [] = rl.2 := by
      rw [List.getD_eq_getElem _ _ hrlt]
      exact (List.get_eq_getElem lines ⟨rl.1, hrlt⟩).symm.trans hrv
    refine ⟨hrlt, ?_, ?_⟩
    · rw [hline]; exact hclt
    · rw [hline, List.getD_eq_getElem _ _ hclt]
      exact (List.get_eq_getElem rl.2 ⟨cch.1, hclt⟩).symm.trans hcv
  · rintro ⟨hrlt, hclt, hch⟩
    refine ⟨(r, lines.getD r []), ?_, ?_⟩
    · rw [List.mem_enum_iff_get?, List.get?_eq_some]
      exact ⟨hrlt,
        (List.get_eq_getElem lines ⟨r, hrlt⟩).trans (List.getD_eq_getElem lines [] hrlt).symm⟩
    · rw [List.mem_map]
      refine ⟨(c, ch), ?_, rfl⟩
      rw [List.mem_enum_iff_get?, List.get?_eq_some]
      exact ⟨hclt,
        (List.get_eq_getElem _ ⟨c, hclt⟩).trans
          ((List.getD_eq_getElem _ ' ' hclt).symm.trans hch)⟩

theorem procStep_shape (off : Cell) (acc : LevelData) (t : Nat × Nat × Char)
    (h : gridShape acc.grid) : gridShape (procStep off acc t).grid := by
  unfold procStep processChar
  by_cases hb : ¬ inBoundsB ROWS COLS ((t.1 : Int) + off.1) ((t.2.1 : Int) + off.2)
  · rw [if_pos hb]; exact h
  · rw [if_neg hb]
    have hin := not_not.mp hb
    split_ifs <;> first | exact h | exact gridShape_set _ h _ _ hin _

theorem procStep_write (off : Cell) (acc : LevelData) (t : Nat × Nat × Char) (cell : Cell)
    (hsh : gridShape acc.grid) (hw : writesB off t cell = true) :
    gridAt (procStep off acc t).grid cell.1 cell.2 = charCell t.2.2 := by
  have hw' := hw
  simp only [writesB, Bool.and_eq_true, decide_eq_true_eq] at hw'
  obtain ⟨⟨himg, hinb⟩, hchx⟩ := hw'
  have hchx' : ¬ t.2.2 = 'X' := by simpa using hchx
  have h1 : (t.1 : Int) + off.1 = cell.1 := congrArg Prod.fst himg
  have h2 : (t.2.1 : Int) + off.2 = cell.2 := congrArg Prod.snd himg
  unfold procStep processChar
  rw [h1, h2]
  rw [if_neg (by rw [hinb]; simp)]
  have hset : ∀ v, gridAt (gridSet acc.grid cell.1 cell.2 v) cell.1 cell.2 = v :=
    fun v => gridAt_gridSet_self acc.grid hsh cell.1 cell.2 hinb v
  by_cases e1 : t.2.2 = '#'
  · rw [if_pos e1]; dsimp only; rw [hset]; simp [charCell, e1]
  · rw [if_neg e1]
    by_cases e2 : t.2.2 = 'S'
    · rw [if_pos e2]; dsimp only; rw [hset]; simp [charCell, e1, e2]
    · rw [if_neg e2]
      by_cases e3 : t.2.2 = 'G'
      · rw [if_pos e3]; dsimp only; rw [hset]; simp [charCell, e1, e2, e3]
      · rw [if_neg e3]
        by_cases e4 : t.2.2 = 'D'
        · rw [if_pos e4]; dsimp only; rw [hset]; simp [charCell, e1, e2, e3, e4]
        · rw [if_neg e4, if_neg hchx']
          dsimp only; rw [hset]; simp [charCell, e1, e2, e3, e4, hchx']

theorem procStep_skip (off : Cell) (acc : LevelData) (t : Nat × Nat × Char) (cell : Cell)
    (hsh : gridShape acc.grid) (hin : inBoundsB ROWS COLS cell.1 cell.2 = true)
    (hw : writesB off t cell = false) :
    gridAt (procStep off acc t).grid cell.1 cell.2 = gridAt acc.grid cell.1 cell.2 := by
  unfold procStep processChar
  by_cases hb : ¬ inBoundsB ROWS COLS ((t.1 : Int) + off.1) ((t.2.1 : Int) + off.2)
  · rw [if_pos hb]
  · rw [if_neg hb]
    have hinb := not_not.mp hb
    by_cases hX : t.2.2 = 'X'
    · have e1 : ¬ t.2.2 = '#' := by rw [hX]; decide
      have e2 : ¬ t.2.2 = 'S' := by rw [hX]; decide
      have e3 : ¬ t.2.2 = 'G' := by rw [hX]; decide
      have e4 : ¬ t.2.2 = 'D' := by rw [hX]; decide
      rw [if_neg e1, if_neg e2, if_neg e3, if_neg e4, if_pos hX]
    · have hne : ((t.1 : Int) + off.1, (t.2.1 : Int) + off.2) ≠ cell := by
        intro he
        have : writesB off t cell = true := by
          simp only [writesB, Bool.and_eq_true, decide_eq_true_eq]
          exact ⟨⟨he, hin⟩, by simpa using hX⟩
        rw [this] at hw
        cases hw
      have hne' : (cell.1, cell.2) ≠ ((t.1 : Int) + off.1, (t.2.1 : Int) + off.2) := by
        intro he
        exact hne (by rw [← he])
      have hset : ∀ v, gridAt (gridSet acc.grid ((t.1 : Int) + off.1) ((t.2.1 : Int) + off.2) v)
          cell.1 cell.2 = gridAt acc.grid cell.1 cell.2 :=
        fun v => gridAt_gridSet_ne acc.grid hsh _ _ hinb cell.1 cell.2 hin hne' v
      split_ifs <;> first | rfl | (dsimp only; rw [hset])

theorem charFold_grid (off : Cell) :
    ∀ (cs : List (Nat × Nat × Char)) (acc : LevelData) (cell : Cell),
      gridShape acc.grid → inBoundsB ROWS COLS cell.1 cell.2 = true →
      gridAt ((cs.foldl (procStep off) acc).grid) cell.1 cell.2 =
        (match (cs.filter (fun t => writesB off t cell)).getLast? with
         | some t => charCell t.2.2
         | none => gridAt acc.grid cell.1 cell.2) := by
  intro cs
  induction cs with
  | nil => intro acc cell hsh hin; rfl
  | cons t rest ih =>
    intro acc cell hsh hin
    rw [List.foldl_cons, List.filter_cons]
    by_cases hw : writesB off t cell
    · rw [if_pos hw]
      rw [ih (procStep off acc t) cell (procStep_shape off acc t hsh) hin]
      cases hfr : rest.filter (fun t' => writesB off t' cell) with
      | nil =>
        exact procStep_write off acc t cell hsh hw
      | cons t' rest' =>
        rw [List.getLast?_cons_cons]
        obtain ⟨x, hx⟩ : ∃ x, (t' :: rest').getLast? = some x :=
          ⟨(t' :: rest').getLast (by simp), List.getLast?_eq_getLast_of_ne_nil (by simp)⟩
        rw [hx]
    · rw [if_neg hw]
      rw [ih (procStep off acc t) cell (procStep_shape off acc t hsh) hin]
      cases hfr : rest.filter (fun t' => writesB off t' cell) with
      | nil =>
        exact procStep_skip off acc t cell hsh hin (by simpa using hw)
      | cons t' rest' => rfl

theorem charFold_shape (off : Cell) :
    ∀ (cs : List (Nat × Nat × Char)) (acc : LevelData), gridShape acc.grid →
      gridShape ((cs.foldl (procStep off) acc).grid) := by
  intro cs
  induction cs with
  | nil => intro acc h; exact h
  | cons t rest ih => intro acc h; exact ih _ (procStep_shape off acc t h)

theorem procStep_ghosts (off : Cell) (acc : LevelData) (t : Nat × Nat × Char) :
    (procStep off acc t).ghost_positions =
      if ghostAddB off t then acc.ghost_positions ++ [imageOf off t.1 t.2.1]
      else acc.ghost_positions := by
  unfold procStep processChar ghostAddB imageOf
  split_ifs <;> first | rfl | (simp_all <;> split_ifs <;> rfl)

theorem charFold_ghosts (off : Cell) :
    ∀ (cs : List (Nat × Nat × Char)) (acc : LevelData),
      (cs.foldl (procStep off) acc).ghost_positions =
        acc.ghost_positions ++
          (cs.filter (ghostAddB off)).map (fun t => imageOf off t.1 t.2.1) := by
  intro cs
  induction cs with
  | nil => intro acc; simp
  | cons t rest ih =>
    intro acc
    rw [List.foldl_cons, ih, procStep_ghosts, List.filter_cons]
    by_cases hg : ghostAddB off t
    · rw [if_pos hg, if_pos hg]
      simp
    · rw [if_neg hg, if_neg hg]

theorem procStep_rewards (off : Cell) (acc : LevelData) (t : Nat × Nat × Char) :
    (procStep off acc t).reward_cells =
      if rewardAddB off t then insert (imageOf off t.1 t.2.1) acc.reward_cells
      else acc.reward_cells := by
  unfold procStep processChar rewardAddB imageOf
  split_ifs <;> first | rfl | (simp_all <;> split_ifs <;> rfl)

theorem charFold_rewards (off : Cell) :
    ∀ (cs : List (Nat × Nat × Char)) (acc : LevelData) (p : Cell),
      (p ∈ (cs.foldl (procStep off) acc).reward_cells ↔
        p ∈ acc.reward_cells ∨
          ∃ t, t ∈ cs ∧ rewardAddB off t = true ∧ imageOf off t.1 t.2.1 = p) := by
  intro cs
  induction cs with
  | nil =>
    intro acc p
    simp
  | cons t rest ih =>
    intro acc p
    rw [List.foldl_cons, ih, procStep_rewards]
    by_cases hr : rewardAddB off t
    · rw [if_pos hr]
      simp only [Finset.mem_insert, List.mem_cons]
      constructor
      · rintro (⟨h | h⟩ | ⟨t', ht', hrt', hit'⟩)
        · exact Or.inr ⟨t, Or.inl rfl, hr, h.symm⟩
        · exact Or.inl h
        · exact Or.inr ⟨t', Or.inr ht', hrt', hit'⟩
      · rintro (h | ⟨t', ht' | ht', hrt', hit'⟩)
        · exact Or.inl (Or.inr h)
        · subst ht'
          exact Or.inl (Or.inl hit'.symm)
        · exact Or.inr ⟨t', ht', hrt', hit'⟩
    · rw [if_neg hr]
      simp only [List.mem_cons]
      constructor
      · rintro (h | ⟨t', ht', hrt', hit'⟩)
        · exact Or.inl h
        · exact Or.inr ⟨t', Or.inr ht', hrt', hit'⟩
      · rintro (h | ⟨t', ht' | ht', hrt', hit'⟩)
        · exact Or.inl h
        · subst ht'
          rw [hrt'] at hr
          cases hr rfl
        · exact Or.inr ⟨t', ht', hrt', hit'⟩

theorem procStep_start (off : Cell) (acc : LevelData) (t : Nat × Nat × Char) :
    (procStep off acc t).start =
      if startSetB off t then some (imageOf off t.1 t.2.1) else acc.start := by
  unfold procStep processChar startSetB imageOf
  split_ifs <;> first | rfl | (simp_all <;> split_ifs <;> rfl)

theorem procStep_goal (off : Cell) (acc : LevelData) (t : Nat × Nat × Char) :
    (procStep off acc t).goal =
      if goalSetB off t then some (imageOf off t.1 t.2.1) else acc.goal := by
  unfold procStep processChar goalSetB imageOf
  split_ifs <;> first | rfl | (simp_all <;> split_ifs <;> rfl)

theorem charFold_start (off : Cell) :
    ∀ (cs : List (Nat × Nat × Char)) (acc : LevelData),
      (cs.foldl (procStep off) acc).start =
        (match (cs.filter (startSetB off)).getLast? with
         | some t => some (imageOf off t.1 t.2.1)
         | none => acc.start) := by
  intro cs
  induction cs with
  | nil => intro acc; rfl
  | cons t rest ih =>
    intro acc
    rw [List.foldl_cons, List.filter_cons, ih]
    by_cases hs : startSetB off t
    · rw [if_pos hs]
      cases hfr : rest.filter (startSetB off) with
      | nil =>
        show (procStep off acc t).start = _
        rw [procStep_start, if_pos hs]
        rfl
      | cons t' rest' =>
        rw [List.getLast?_cons_cons]
        obtain ⟨x, hx⟩ : ∃ x, (t' :: rest').getLast? = some x :=
          ⟨(t' :: rest').getLast (by simp), List.getLast?_eq_getLast_of_ne_nil (by simp)⟩
        rw [hx]
    · rw [if_neg hs]
      cases hfr : rest.filter (startSetB off) with
      | nil =>
        show (procStep off acc t).start = _
        rw [procStep_start, if_neg hs]
        rfl
      | cons t' rest' => rfl

theorem charFold_goal (off : Cell) :
    ∀ (cs : List (Nat × Nat × Char)) (acc : LevelData),
      (cs.foldl (procStep off) acc).goal =
        (match (cs.filter (goalSetB off)).getLast? with
         | some t => some (imageOf off t.1 t.2.1)
         | none => acc.goal) := by
  intro cs
  induction cs with
  | nil => intro acc; rfl
  | cons t rest ih =>
    intro acc
    rw [List.foldl_cons, List.filter_cons, ih]
    by_cases hs : goalSetB off t
    · rw [if_pos hs]
      cases hfr : rest.filter (goalSetB off) with
      | nil =>
        show (procStep off acc t).goal = _
        rw [procStep_goal, if_pos hs]
        rfl
      | cons t' rest' =>
        rw [List.getLast?_cons_cons]
        obtain ⟨x, hx⟩ : ∃ x, (t' :: rest').getLast? = some x :=
          ⟨(t' :: rest').getLast (by simp), List.getLast?_eq_getLast_of_ne_nil (by simp)⟩
        rw [hx]
    · rw [if_neg hs]
      cases hfr : rest.filter (goalSetB off) with
      | nil =>
        show (procStep off acc t).goal = _
        rw [procStep_goal, if_neg hs]
        rfl
      | cons t' rest' => rfl

theorem gridAt_make_grid (rows cols : Nat) (r c : Int) :
    gridAt (make_grid rows cols) r c = EMPTY := by
  unfold gridAt make_grid
  by_cases hr : r.toNat < rows
  · have hrow : (List.replicate rows (List.replicate cols EMPTY)).getD r.toNat [] =
        List.replicate cols EMPTY := by
      rw [List.getD_eq_getElem _ _ (by simpa using hr), List.getElem_replicate]
    rw [hrow]
    by_cases hc : c.toNat < cols
    · rw [List.getD_eq_getElem _ _ (by simpa using hc), List.getElem_replicate]
    · rw [getD_default_of_le _ _ _ (by simpa using Nat.le_of_not_lt hc)]
  · have hrow : (List.replicate rows (List.replicate cols EMPTY)).getD r.toNat [] = [] := by
      rw [getD_default_of_le _ _ _ (by simpa using Nat.le_of_not_lt hr)]
    rw [hrow]
    rfl

theorem imageOf_inj {off : Cell} {a b r c : Nat}
    (h : imageOf off a b = imageOf off r c) : a = r ∧ b = c := by
  unfold imageOf at h
  rw [Prod.ext_iff] at h
  obtain ⟨h1, h2⟩ := h
  simp only at h1 h2
  omega

theorem charsOf_writer_eq {lines : List (List Char)} {r c : Nat} {ch : Char}
    {t : Nat × Nat × Char}
    (hch : (lines.getD r []).getD c ' ' = ch)
    (ht : t ∈ charsOf lines)
    (himg : imageOf (levelOffset lines) t.1 t.2.1 = imageOf (levelOffset lines) r c) :
    t = (r, c, ch) := by
  obtain ⟨a, b, ch'⟩ := t
  obtain ⟨h1, h2⟩ := imageOf_inj himg
  simp only at h1 h2
  subst h1
  subst h2
  obtain ⟨-, -, hv⟩ := mem_charsOf.mp ht
  rw [hch] at hv
  rw [hv]

/-- C10: the loader places in-region character `(r, c)` at the centered
grid cell `(r + (ROWS - level_rows) // 2, c + (COLS - level_cols) // 2)`
(floor division), silently dropping out-of-range cells: `#` paints a wall,
`S`/`G` paint and set start/goal, `D` paints and records a reward, `X`
records a pursuer leaving the cell `EMPTY`, and any other character paints
`EMPTY`; recorded pursuers and rewards all lie inside the 30×30 grid. -/
theorem load_level_places_chars :
    (∀ (lines : List (List Char)) (r c : Nat),
      r < lines.length → c < (lines.getD r []).length →
      inBoundsB ROWS COLS (imageOf (levelOffset lines) r c).1
          (imageOf (levelOffset lines) r c).2 = true →
      (gridAt (load_level lines).grid (imageOf (levelOffset lines) r c).1
          (imageOf (levelOffset lines) r c).2 =
        charCell ((lines.getD r []).getD c ' ') ∧
       ((lines.getD r []).getD c ' ' = 'D' →
         imageOf (levelOffset lines) r c ∈ (load_level lines).reward_cells) ∧
       ((lines.getD r []).getD c ' ' = 'X' →
         imageOf (levelOffset lines) r c ∈ (load_level lines).ghost_positions ∧
         gridAt (load_level lines).grid (imageOf (levelOffset lines) r c).1
           (imageOf (levelOffset lines) r c).2 = EMPTY) ∧
       ((lines.getD r []).getD c ' ' = 'S' →
         ∃ r' c', r' < lines.length ∧ c' < (lines.getD r' []).length ∧
           (lines.getD r' []).getD c' ' ' = 'S' ∧
           (load_level lines).start = some (imageOf (levelOffset lines) r' c')) ∧
       ((lines.getD r []).getD c ' ' = 'G' →
         ∃ r' c', r' < lines.length ∧ c' < (lines.getD r' []).length ∧
           (lines.getD r' []).getD c' ' ' = 'G' ∧
           (load_level lines).goal = some (imageOf (levelOffset lines) r' c')))) ∧
    (∀ (lines : List (List Char)) (p : Cell), p ∈ (load_level lines).ghost_positions →
      inBoundsB ROWS COLS p.1 p.2 = true) ∧
    (∀ (lines : List (List Char)) (p : Cell), p ∈ (load_level lines).reward_cells →
      inBoundsB ROWS COLS p.1 p.2 = true) := by
  have hload : ∀ (lines : List (List Char)), lines ≠ [] →
      load_level lines = (charsOf lines).foldl (procStep (levelOffset lines)) emptyLevel :=
    load_eq_charFold
  refine ⟨?_, ?_, ?_⟩
  · intro lines r c hr hc hin
    have hne : lines ≠ [] := by
      intro he
      rw [he] at hr
      cases hr
    set off := levelOffset lines with hoff
    set ch := (lines.getD r []).getD c ' ' with hch
    set cell := imageOf off r c with hcell
    have ht0 : (r, c, ch) ∈ charsOf lines := mem_charsOf.mpr ⟨hr, hc, rfl⟩
    have hgrid : gridAt (load_level lines).grid cell.1 cell.2 = charCell ch := by
      rw [hload lines hne,
        charFold_grid off (charsOf lines) emptyLevel cell gridShape_make hin]
      by_cases hX : ch = 'X'
      · have hnil : (charsOf lines).filter (fun t => writesB off t cell) = [] := by
          rw [List.filter_eq_nil_iff]
          intro t ht hw
          simp only [writesB, Bool.and_eq_true, decide_eq_true_eq] at hw
          obtain ⟨⟨himg, -⟩, hchx⟩ := hw
          have := charsOf_writer_eq hch.symm ht (by rw [himg, hcell])
          rw [this] at hchx
          simp [hX] at hchx
        rw [hnil]
        show gridAt emptyLevel.grid cell.1 cell.2 = charCell ch
        rw [hX]
        exact gridAt_make_grid ROWS COLS cell.1 cell.2
      · have hw0 : writesB off (r, c, ch) cell = true := by
          unfold writesB
          rw [Bool.and_eq_true, Bool.and_eq_true]
          refine ⟨⟨decide_eq_true hcell.symm, hin⟩, ?_⟩
          first
          | exact decide_eq_true hX
          | simp [hX]
        have hmem : (r, c, ch) ∈ (charsOf lines).filter (fun t => writesB off t cell) :=
          List.mem_filter.mpr ⟨ht0, hw0⟩
        have hne' : (charsOf lines).filter (fun t => writesB off t cell) ≠ [] := by
          intro he
          rw [he] at hmem
          cases hmem
        obtain ⟨x, hx⟩ : ∃ x,
            ((charsOf lines).filter (fun t => writesB off t cell)).getLast? = some x :=
          ⟨_, List.getLast?_eq_getLast_of_ne_nil hne'⟩
        have hxmem : x ∈ (charsOf lines).filter (fun t => writesB off t cell) := by
          obtain ⟨h', hx'⟩ := List.mem_getLast?_eq_getLast (by rw [hx]; rfl)
          rw [hx'] at *
          exact List.getLast_mem h'
        obtain ⟨hxc, hxw⟩ := List.mem_filter.mp hxmem
        simp only [writesB, Bool.and_eq_true, decide_eq_true_eq] at hxw
        obtain ⟨⟨hximg, -⟩, -⟩ := hxw
        have hxeq : x = (r, c, ch) := charsOf_writer_eq hch.symm hxc (by rw [hximg, hcell])
        rw [hx, hxeq]
    refine ⟨hgrid, ?_, ?_, ?_, ?_⟩
    · intro hD
      rw [hload lines hne, charFold_rewards]
      refine Or.inr ⟨(r, c, ch), ht0, ?_, hcell.symm⟩
      simp only [rewardAddB, Bool.and_eq_true, decide_eq_true_eq]
      rw [← hcell]
      exact ⟨hin, hD⟩
    · intro hX
      refine ⟨?_, by rw [hgrid, hX]; rfl⟩
      rw [hload lines hne, charFold_ghosts]
      rw [List.mem_append]
      right
      rw [List.mem_map]
      refine ⟨(r, c, ch), List.mem_filter.mpr ⟨ht0, ?_⟩, hcell.symm⟩
      simp only [ghostAddB, Bool.and_eq_true, decide_eq_true_eq]
      rw [← hcell]
      exact ⟨hin, hX⟩
    · intro hS
      rw [hload lines hne, charFold_start]
      have hs0 : startSetB off (r, c, ch) = true := by
        simp only [startSetB, Bool.and_eq_true, decide_eq_true_eq]
        rw [← hcell]
        exact ⟨hin, hS⟩
      have hmem : (r, c, ch) ∈ (charsOf lines).filter (startSetB off) :=
        List.mem_filter.mpr ⟨ht0, hs0⟩
      have hne' : (charsOf lines).filter (startSetB off) ≠ [] := by
        intro he
        rw [he] at hmem
        cases hmem
      obtain ⟨x, hx⟩ : ∃ x, ((charsOf lines).filter (startSetB off)).getLast? = some x :=
        ⟨_, List.getLast?_eq_getLast_of_ne_nil hne'⟩
      have hxmem : x ∈ (charsOf lines).filter (startSetB off) := by
        obtain ⟨h', hx'⟩ := List.mem_getLast?_eq_getLast (by rw [hx]; rfl)
        rw [hx'] at *
        exact List.getLast_mem h'
      obtain ⟨hxc, hxs⟩ := List.mem_filter.mp hxmem
      simp only [startSetB, Bool.and_eq_true, decide_eq_true_eq] at hxs
      obtain ⟨hrx, hcx, hvx⟩ := mem_charsOf.mp hxc
      rw [hx]
      exact ⟨x.1, x.2.1, hrx, hcx, by rw [hvx]; exact hxs.2, rfl⟩
    · intro hG
      rw [hload lines hne, charFold_goal]
      have hs0 : goalSetB off (r, c, ch) = true := by
        simp only [goalSetB, Bool.and_eq_true, decide_eq_true_eq]
        rw [← hcell]
        exact ⟨hin, hG⟩
      have hmem : (r, c, ch) ∈ (charsOf lines).filter (goalSetB off) :=
        List.mem_filter.mpr ⟨ht0, hs0⟩
      have hne' : (charsOf lines).filter (goalSetB off) ≠ [] := by
        intro he
        rw [he] at hmem
        cases hmem
      obtain ⟨x, hx⟩ : ∃ x, ((charsOf lines).filter (goalSetB off)).getLast? = some x :=
        ⟨_, List.getLast?_eq_getLast_of_ne_nil hne'⟩
      have hxmem : x ∈ (charsOf lines).filter (goalSetB off) := by
        obtain ⟨h', hx'⟩ := List.mem_getLast?_eq_getLast (by rw [hx]; rfl)
        rw [hx'] at *
        exact List.getLast_mem h'
      obtain ⟨hxc, hxs⟩ := List.mem_filter.mp hxmem
      simp only [goalSetB, Bool.and_eq_true, decide_eq_true_eq] at hxs
      obtain ⟨hrx, hcx, hvx⟩ := mem_charsOf.mp hxc
      rw [hx]
      exact ⟨x.1, x.2.1, hrx, hcx, by rw [hvx]; exact hxs.2, rfl⟩
  · intro lines p hp
    by_cases hne : lines = []
    · rw [hne] at hp
      cases hp
    · rw [hload lines hne, charFold_ghosts] at hp
      rw [List.mem_append] at hp
      rcases hp with hp | hp
      · cases hp
      · rw [List.mem_map] at hp
        obtain ⟨t, htf, hteq⟩ := hp
        obtain ⟨-, htg⟩ := List.mem_filter.mp htf
        simp only [ghostAddB, Bool.and_eq_true, decide_eq_true_eq] at htg
        rw [← hteq]
        exact htg.1
  · intro lines p hp
    by_cases hne : lines = []
    · rw [hne] at hp
      cases hp
    · rw [hload lines hne] at hp
      rw [charFold_rewards] at hp
      rcases hp with hp | ⟨t, htc, htr, hteq⟩
      · cases hp
      · simp only [rewardAddB, Bool.and_eq_true, decide_eq_true_eq] at htr
        rw [← hteq]
        exact htr.1

/-- Witness for C5: an agent standing on the goal cell re-queries and gets
the one-cell path `[goal]`, which the `len(path) < 2` check reports as
stuck. -/
theorem seeker_short_path_is_stuck_witness :
    (pacPhase stateOnGoal 1000).gameOver = true ∧
    (pacPhase stateOnGoal 1000).reason = some "stuck" ∧
    (pacPhase stateOnGoal 1000).finalScore = some stateOnGoal.score ∧
    (pacPhase stateOnGoal 1000).endTime = some 1000 ∧
    (pacPhase stateOnGoal 1000).playing = false ∧
    (pacPhase stateOnGoal 1000).pacPos = stateOnGoal.pacPos :=
  seeker_short_path_is_stuck stateOnGoal 1000 rfl rfl (by decide) (by
    intro p hp
    have : astar ROWS COLS stateOnGoal.grid stateOnGoal.pacPos stateOnGoal.goal
        stateOnGoal.ghostPositions = some [(2, 2)] := by decide
    rw [this] at hp
    cases hp
    decide)

/-- Witness for C10: on the two-line level `S#G` / `DX.` the offsets are
`(14, 13)`, so region cell `(1, 0)` lands on grid cell `(15, 13)`, painted
`REWARD` and recorded in the reward set. -/
theorem load_level_places_chars_witness :
    (1 : Nat) < ([['S', '#', 'G'], ['D', 'X', '.']] : List (List Char)).length ∧
    gridAt (load_level [['S', '#', 'G'], ['D', 'X', '.']]).grid 15 13 = REWARD ∧
    (15, 13) ∈ (load_level [['S', '#', 'G'], ['D', 'X', '.']]).reward_cells := by
  have h := load_level_places_chars.1 [['S', '#', 'G'], ['D', 'X', '.']] 1 0
    (by decide) (by decide) (by decide)
  exact ⟨by decide, h.1, h.2.1 rfl⟩

theorem load_ghost_cells_empty (lines : List (List Char)) (p : Cell)
    (hp : p ∈ (load_level lines).ghost_positions) :
    gridAt (load_level lines).grid p.1 p.2 = EMPTY := by
  by_cases hnil : lines = []
  · rw [hnil] at hp
    cases hp
  · rw [load_eq_charFold lines hnil] at hp ⊢
    rw [charFold_ghosts] at hp
    rcases List.mem_append.mp hp with hp | hp
    · cases hp
    · obtain ⟨t, htf, hteq⟩ := List.mem_map.mp hp
      obtain ⟨a, b, ch⟩ := t
      obtain ⟨htc, htg⟩ := List.mem_filter.mp htf
      simp only [ghostAddB, Bool.and_eq_true, decide_eq_true_eq] at htg
      obtain ⟨hin, hX⟩ := htg
      simp only at hin hX hteq
      obtain ⟨hr, hc, hv⟩ := mem_charsOf.mp htc
      rw [← hteq]
      rw [charFold_grid (levelOffset lines) (charsOf lines) emptyLevel _ gridShape_make hin]
      have hnilf : (charsOf lines).filter
          (fun t' => writesB (levelOffset lines) t'
            (imageOf (levelOffset lines) a b)) = [] := by
        rw [List.filter_eq_nil_iff]
        intro t' ht' hw
        simp only [writesB, Bool.and_eq_true, decide_eq_true_eq] at hw
        obtain ⟨⟨himg, -⟩, hchx⟩ := hw
        have hteq' := charsOf_writer_eq hv ht' himg
        rw [hteq'] at hchx
        simp [hX] at hchx
      rw [hnilf]
      exact gridAt_make_grid ROWS COLS _ _

theorem ghostsOffWalls_fold_corners (rows cols : Nat) (grid : Grid) :
    ∀ (cs : List Cell) (ghosts : List Cell), GhostsOffWalls grid ghosts →
      GhostsOffWalls grid
        (cs.foldl (fun acc p =>
          if inBoundsB rows cols p.1 p.2 && gridAt grid p.1 p.2 ≠ WALL then
            if p ∈ acc then acc else acc ++ [p]
          else acc) ghosts) := by
  intro cs
  induction cs with
  | nil => intro ghosts hg; exact hg
  | cons p rest ih =>
    intro ghosts hg
    rw [List.foldl_cons]
    apply ih
    split
    next hcond =>
      split
      · exact hg
      · intro q hq
        rcases List.mem_append.mp hq with hq | hq
        · exact hg q hq
        · rw [List.mem_singleton] at hq
          subst hq
          rw [Bool.and_eq_true] at hcond
          first
          | exact of_decide_eq_true hcond.2
          | simpa using hcond.2
    next _ =>
      exact hg

/-- Counterexample to C6, two reachable violations.  First, the ghost-add
editing click (`G` held) performs no wall check, so clicking a wall cell
puts a pursuer on a Wall: on an empty grid with a wall written at `(1, 1)`,
`addGhostClick` at `(1, 1)` violates the off-walls invariant it started
from.  Second, pursuers move with no collision avoidance and can merge onto
one cell, and the merged list survives a reset into editing; placing a wall
on such a duplicated pursuer cell removes only the first copy (Python's
`list.remove`), leaving the second pursuer standing on the new Wall: from
the all-empty grid with pursuers `[(1, 1), (1, 1)]`, `placeWall` at
`(1, 1)` keeps a pursuer at `(1, 1)` while writing a Wall there. -/
theorem ghost_click_puts_pursuer_on_wall :
    (GhostsOffWalls (gridSet (make_grid ROWS COLS) 1 1 WALL) [] ∧
     addGhostClick [] (1, 1) = [(1, 1)] ∧
     ¬ GhostsOffWalls (gridSet (make_grid ROWS COLS) 1 1 WALL)
        (addGhostClick [] (1, 1))) ∧
    (GhostsOffWalls (make_grid ROWS COLS) [(1, 1), (1, 1)] ∧
     (placeWall (make_grid ROWS COLS) ∅ [(1, 1), (1, 1)] (1, 1)).2.2 = [(1, 1)] ∧
     gridAt (placeWall (make_grid ROWS COLS) ∅ [(1, 1), (1, 1)] (1, 1)).1 1 1 = WALL ∧
     ¬ GhostsOffWalls (placeWall (make_grid ROWS COLS) ∅ [(1, 1), (1, 1)] (1, 1)).1
        (placeWall (make_grid ROWS COLS) ∅ [(1, 1), (1, 1)] (1, 1)).2.2) := by
  refine ⟨⟨fun p hp => absurd hp (List.not_mem_nil p), rfl, fun h => ?_⟩,
    ?_, by decide, by decide, fun h => ?_⟩
  · have := h (1, 1) (by decide)
    exact this (by decide)
  · intro p hp
    have hp' : p = (1, 1) := by
      rcases List.mem_cons.mp hp with h' | h'
      · exact h'
      · rwa [List.mem_singleton] at h'
    subst hp'
    rw [gridAt_make_grid]
    decide
  · have := h (1, 1) (by decide)
    exact this (by decide)

/-- C6 amended: the default corner spawn filters out wall corners, the
post-load corner fill checks walls, the level loader records pursuers only
on cells it leaves `EMPTY`, and placing a wall preserves the off-walls
invariant when the pursuer list has no duplicates (the removal deletes a
single copy, so the duplicate-free hypothesis is exactly what the second
counterexample forces); the `G`+click append performs no wall check and
breaks the invariant outright. -/
theorem pursuer_wall_invariant_preservation :
    (∀ (rows cols : Nat) (grid : Grid),
      GhostsOffWalls grid (cornerSpawn rows cols grid)) ∧
    (∀ (rows cols : Nat) (grid : Grid) (ghosts : List Cell),
      GhostsOffWalls grid ghosts →
      GhostsOffWalls grid (ensureCornerGhosts rows cols grid ghosts)) ∧
    (∀ lines : List (List Char),
      GhostsOffWalls (load_level lines).grid (load_level lines).ghost_positions) ∧
    (∀ (grid : Grid) (rewards : Finset Cell) (ghosts : List Cell) (cell : Cell),
      gridShape grid → ghosts.Nodup →
      inBoundsB ROWS COLS cell.1 cell.2 = true →
      (∀ p ∈ ghosts, inBoundsB ROWS COLS p.1 p.2 = true) →
      GhostsOffWalls grid ghosts →
      GhostsOffWalls (placeWall grid rewards ghosts cell).1
        (placeWall grid rewards ghosts cell).2.2) := by
  refine ⟨?_, ?_, ?_, ?_⟩
  · intro rows cols grid p hp
    obtain ⟨-, hpred⟩ := List.mem_filter.mp hp
    rw [Bool.and_eq_true] at hpred
    first
    | exact of_decide_eq_true hpred.2
    | simpa using hpred.2
  · intro rows cols grid ghosts hg
    unfold ensureCornerGhosts
    exact ghostsOffWalls_fold_corners rows cols grid (corner_positions rows cols) ghosts hg
  · intro lines p hp hw
    rw [load_ghost_cells_empty lines p hp] at hw
    exact absurd hw (by decide)
  · intro grid rewards ghosts cell hsh hnd hin hgin hg p hp
    unfold placeWall at hp ⊢
    dsimp only at hp ⊢
    have hpg : p ∈ ghosts ∧ p ≠ cell := by
      by_cases hmem : cell ∈ ghosts
      · rw [if_pos hmem] at hp
        exact ⟨List.mem_of_mem_erase hp, ((List.Nodup.mem_erase_iff hnd).mp hp).1⟩
      · rw [if_neg hmem] at hp
        exact ⟨hp, fun he => hmem (he ▸ hp)⟩
    rw [gridAt_gridSet_ne grid hsh cell.1 cell.2 hin p.1 p.2 (hgin p hpg.1)
      (fun he => hpg.2 he) WALL]
    exact hg p hpg.1

/-- Witness for the amended C6: the post-load corner fill on the empty grid
and the wall placement at `(1, 1)` with a single pursuer at `(0, 0)` both
keep pursuers off walls. -/
theorem pursuer_wall_invariant_preservation_witness :
    GhostsOffWalls (make_grid ROWS COLS)
      (ensureCornerGhosts ROWS COLS (make_grid ROWS COLS) []) ∧
    GhostsOffWalls (placeWall (make_grid ROWS COLS) ∅ [(0, 0)] (1, 1)).1
      (placeWall (make_grid ROWS COLS) ∅ [(0, 0)] (1, 1)).2.2 := by
  constructor
  · exact pursuer_wall_invariant_preservation.2.1 ROWS COLS (make_grid ROWS COLS) []
      (fun p hp => absurd hp (List.not_mem_nil p))
  · refine pursuer_wall_invariant_preservation.2.2.2 (make_grid ROWS COLS) ∅
      [(0, 0)] (1, 1) gridShape_make (by decide) (by decide) ?_ ?_
    · intro p hp
      rw [List.mem_singleton] at hp
      subst hp
      decide
    · intro p hp
      rw [List.mem_singleton] at hp
      subst hp
      rw [gridAt_make_grid]
      decide

theorem foldl_preserve_mem {σ α : Type} {P : σ → Prop} {f : σ → α → σ} :
    ∀ (l : List α), (∀ s a, a ∈ l → P s → P (f s a)) → ∀ s, P s → P (l.foldl f s) := by
  intro l
  induction l with
  | nil => intro _ s hs; exact hs
  | cons a rest ih =>
    intro hf s hs
    exact ih (fun s' a' ha' => hf s' a' (List.mem_cons_of_mem _ ha')) _
      (hf s a (List.mem_cons_self _ _) hs)

theorem mem_allCells {rows cols : Nat} {p : Cell}
    (h : inBoundsB rows cols p.1 p.2 = true) : p ∈ allCells rows cols := by
  obtain ⟨h1, h2, h3, h4⟩ := inBoundsB_iff.mp h
  unfold allCells
  simp only [List.mem_flatMap, List.mem_map, List.mem_range]
  refine ⟨p.1.toNat, by omega, p.2, ?_, ?_⟩
  · simp
    exact ⟨p.2.toNat, by omega, (Int.toNat_of_nonneg h3).symm⟩
  · rw [Prod.ext_iff]
    exact ⟨Int.toNat_of_nonneg h1, rfl⟩

theorem allCells_length (rows cols : Nat) : (allCells rows cols).length = rows * cols := by
  unfold allCells
  rw [List.length_flatMap]
  simp [Function.comp_def, List.length_flatMap]

theorem visited_length_le (rows cols : Nat) (grid : Grid) (start : Cell)
    (l : List Cell) (hnd : l.Nodup)
    (hb : ∀ v ∈ l, v = start ∨ stepOK rows cols grid v) :
    l.length ≤ 1 + rows * cols := by
  have hsub : l ⊆ start :: allCells rows cols := by
    intro v hv
    rcases hb v hv with h | h
    · subst h; exact List.mem_cons_self _ _
    · exact List.mem_cons_of_mem _ (mem_allCells h.1)
  have := (List.subperm_of_subset hnd hsub).length_le
  simp only [List.length_cons, allCells_length] at this
  omega

theorem reachN_succ_inv {ok : Cell → Prop} {s w : Cell} {n : Nat}
    (h : ReachN ok s w (n + 1)) : ∃ v, ReachN ok s v n ∧ Adj v w ∧ ok w := by
  cases h with
  | step hr hadj hok => exact ⟨_, hr, hadj, hok⟩

theorem distIs_start {ok : Cell → Prop} {s : Cell} : DistIs ok s s 0 :=
  ⟨ReachN.refl, fun m _ => Nat.zero_le m⟩

theorem bfsRelax_cases (rows cols : Nat) (grid : Grid) (cur : Cell) (st : BfsState)
    (d : Cell) :
    bfsRelax rows cols grid cur st d = st ∨
    ∃ w : Cell, w = (cur.1 + d.1, cur.2 + d.2) ∧ stepOK rows cols grid w ∧
      w ∉ st.visited ∧
      bfsRelax rows cols grid cur st d =
        { q := st.q ++ [w], visited := w :: st.visited,
          cameFrom := dictSet st.cameFrom w cur } := by
  unfold bfsRelax
  dsimp only
  split
  next h1 => exact Or.inl rfl
  next h1 =>
    split
    next h2 => exact Or.inl rfl
    next h2 =>
      split
      next h3 => exact Or.inl rfl
      next h3 =>
        exact Or.inr ⟨(cur.1 + d.1, cur.2 + d.2), rfl, ⟨not_not.mp h1, h2⟩, h3, rfl⟩

theorem bfsRelax_self_mem (rows cols : Nat) (grid : Grid) (cur : Cell) (st : BfsState)
    (d : Cell) (hok : stepOK rows cols grid (cur.1 + d.1, cur.2 + d.2)) :
    (cur.1 + d.1, cur.2 + d.2) ∈ (bfsRelax rows cols grid cur st d).visited := by
  unfold bfsRelax
  dsimp only
  rw [if_neg (not_not_intro hok.1), if_neg hok.2]
  split
  next h3 => exact h3
  next h3 => exact List.mem_cons_self _ _

theorem bfsRelax_visited_mono (rows cols : Nat) (grid : Grid) (cur : Cell)
    (st : BfsState) (d : Cell) :
    ∀ v ∈ st.visited, v ∈ (bfsRelax rows cols grid cur st d).visited := by
  intro v hv
  rcases bfsRelax_cases rows cols grid cur st d with h | ⟨w, -, -, -, h⟩
  · rw [h]; exact hv
  · rw [h]; exact List.mem_cons_of_mem _ hv

theorem bfsVisitGo_visited_mono (rows cols : Nat) (grid : Grid) (cur : Cell) :
    ∀ (l : List Cell) (st : BfsState) (v : Cell), v ∈ st.visited →
      v ∈ (l.foldl (bfsRelax rows cols grid cur) st).visited := by
  intro l
  induction l with
  | nil => intro st v hv; exact hv
  | cons d rest ih =>
    intro st v hv
    rw [List.foldl_cons]
    exact ih _ v (bfsRelax_visited_mono rows cols grid cur st d v hv)

theorem bfsVisit_neighbors (rows cols : Nat) (grid : Grid) (cur : Cell) :
    ∀ (l : List Cell) (st : BfsState) (d : Cell), d ∈ l →
      stepOK rows cols grid (cur.1 + d.1, cur.2 + d.2) →
      (cur.1 + d.1, cur.2 + d.2) ∈ (l.foldl (bfsRelax rows cols grid cur) st).visited := by
  intro l
  induction l with
  | nil => intro st d hd _; cases hd
  | cons d0 rest ih =>
    intro st d hd hok
    rcases List.mem_cons.mp hd with hd | hd
    · subst hd
      rw [List.foldl_cons]
      exact bfsVisitGo_visited_mono rows cols grid cur rest _ _
        (bfsRelax_self_mem rows cols grid cur st d hok)
    · rw [List.foldl_cons]
      exact ih _ d hd hok

theorem bfsVisit_closes {rows cols : Nat} {grid : Grid} (st : BfsState) (cur : Cell) :
    ∀ w, Adj cur w → stepOK rows cols grid w →
      w ∈ (bfsVisit rows cols grid st cur).visited := by
  intro w hadj hok
  have hd : (w.1 - cur.1, w.2 - cur.2) ∈ dirs := hadj
  have hw : ((cur.1 + (w.1 - cur.1), cur.2 + (w.2 - cur.2)) : Cell) = w := by
    have h1 : cur.1 + (w.1 - cur.1) = w.1 := by omega
    have h2 : cur.2 + (w.2 - cur.2) = w.2 := by omega
    rw [h1, h2]
  unfold bfsVisit
  have := bfsVisit_neighbors rows cols grid cur dirs st _ hd (by rw [hw]; exact hok)
  rwa [hw] at this

theorem BMid.relaxStep {rows cols : Nat} {grid : Grid} {start goal : Cell} {k : Nat}
    {cur : Cell} {st : BfsState} (h : BMid rows cols grid start goal k cur st)
    {d : Cell} (hd : d ∈ dirs) :
    BMid rows cols grid start goal k cur (bfsRelax rows cols grid cur st d) := by
  rcases bfsRelax_cases rows cols grid cur st d with heq | ⟨w, hwdef, hok, hnew, heq⟩
  · rw [heq]; exact h
  · rw [heq]
    have hadjw : Adj cur w := by rw [hwdef]; exact adj_offset hd
    have hwdist : DistIs (stepOK rows cols grid) start w (k + 1) := by
      refine ⟨h.curDist.1.step hadjw hok, ?_⟩
      intro m hm
      by_contra hlt
      exact hnew (h.levelComplete w m hm (by omega))
    refine ⟨?_, ?_, ?_, ?_, ?_, ?_, ?_, ?_, ?_, ?_, ?_, ?_, ?_, ?_⟩
    · exact List.nodup_cons.mpr ⟨hnew, h.vnodup⟩
    · intro v hv
      rcases List.mem_cons.mp hv with hv | hv
      · subst hv; exact Or.inr hok
      · exact h.vbound v hv
    · exact List.mem_cons_of_mem _ h.startVis
    · intro v hv
      rcases List.mem_append.mp hv with hv | hv
      · exact List.mem_cons_of_mem _ (h.qsub v hv)
      · rw [List.mem_singleton] at hv
        subst hv
        exact List.mem_cons_self _ _
    · obtain ⟨q1, q2, hq, h1, h2⟩ := h.qsplit
      refine ⟨q1, q2 ++ [w], ?_, h1, ?_⟩
      · show st.q ++ [w] = q1 ++ (q2 ++ [w])
        rw [hq, List.append_assoc]
      · intro v hv
        rcases List.mem_append.mp hv with hv | hv
        · exact h2 v hv
        · rw [List.mem_singleton] at hv
          subst hv
          exact hwdist
    · intro v hv
      rcases List.mem_cons.mp hv with hv | hv
      · subst hv; exact ⟨k + 1, hwdist⟩
      · exact h.visDist v hv
    · intro w' n hr hn
      exact List.mem_cons_of_mem _ (h.levelComplete w' n hr hn)
    · intro u hu hnq hne w' hadj hok'
      rcases List.mem_cons.mp hu with hu | hu
      · subst hu
        exact absurd (List.mem_append.mpr (Or.inr (List.mem_singleton_self _))) hnq
      · refine List.mem_cons_of_mem _ (h.closure u hu ?_ hne w' hadj hok')
        intro hq'
        exact hnq (List.mem_append.mpr (Or.inl hq'))
    · intro hg
      rcases List.mem_cons.mp hg with hg | hg
      · rw [hg]
        exact List.mem_append.mpr (Or.inr (List.mem_singleton_self _))
      · exact List.mem_append.mpr (Or.inl (h.goalPending hg))
    · have hns : start ≠ w := fun he => hnew (he ▸ h.startVis)
      rw [dictGet?_dictSet_ne _ _ _ _ hns]
      exact h.cfroot
    · intro v u hget
      rw [dictGet?_dictSet] at hget
      by_cases hvw : v = w
      · rw [if_pos hvw] at hget
        injection hget with hu
        subst hvw
        rw [← hu]
        exact ⟨hadjw, hok, List.mem_cons_of_mem _ h.curVis, k, h.curDist, hwdist⟩
      · rw [if_neg hvw] at hget
        obtain ⟨hadj', hok', huv, n, hdu, hdv⟩ := h.cfparent v u hget
        exact ⟨hadj', hok', List.mem_cons_of_mem _ huv, n, hdu, hdv⟩
    · intro v hv hvs
      rw [dictGet?_dictSet]
      by_cases hvw : v = w
      · rw [if_pos hvw]; rfl
      · rw [if_neg hvw]
        rcases List.mem_cons.mp hv with hv | hv
        · exact absurd hv hvw
        · exact h.cfkeys v hv hvs
    · exact List.mem_cons_of_mem _ h.curVis
    · exact h.curDist

theorem BInv.pop_mid {rows cols : Nat} {grid : Grid} {start goal : Cell} {k : Nat}
    {cur : Cell} {rest : List Cell} {st : BfsState}
    (h : BInv rows cols grid start goal k st) (hq : st.q = cur :: rest)
    (hcd : DistIs (stepOK rows cols grid) start cur k) (hng : cur ≠ goal) :
    BMid rows cols grid start goal k cur { st with q := rest } := by
  obtain ⟨q1, q2, hsplit, hd1, hd2⟩ := h.qsplit
  have hrestsplit : ∃ r1 r2, rest = r1 ++ r2 ∧
      (∀ v ∈ r1, DistIs (stepOK rows cols grid) start v k) ∧
      (∀ v ∈ r2, DistIs (stepOK rows cols grid) start v (k + 1)) := by
    cases q1 with
    | nil =>
      exfalso
      rw [hq] at hsplit
      simp only [List.nil_append] at hsplit
      have hcur : cur ∈ q2 := by rw [← hsplit]; exact List.mem_cons_self _ _
      have := (hd2 cur hcur).unique_dist hcd
      omega
    | cons c q1' =>
      rw [hq, List.cons_append] at hsplit
      injection hsplit with hc hrest
      subst hc
      exact ⟨q1', q2, hrest, fun v hv => hd1 v (List.mem_cons_of_mem _ hv), hd2⟩
  refine ⟨h.vnodup, h.vbound, h.startVis, ?_, hrestsplit, h.visDist, h.levelComplete,
    ?_, ?_, h.cfroot, h.cfparent, h.cfkeys, ?_, hcd⟩
  · intro v hv
    exact h.qsub v (by rw [hq]; exact List.mem_cons_of_mem _ hv)
  · intro u hu hnq hne w hadj hok
    refine h.closure u hu ?_ w hadj hok
    rw [hq]
    intro hmem
    rcases List.mem_cons.mp hmem with hmem | hmem
    · exact hne hmem
    · exact hnq hmem
  · intro hg
    have hgq := h.goalPending hg
    rw [hq] at hgq
    rcases List.mem_cons.mp hgq with h' | h'
    · exact absurd h'.symm hng
    · exact h'
  · exact h.qsub cur (by rw [hq]; exact List.mem_cons_self _ _)

theorem BMid.visitStep {rows cols : Nat} {grid : Grid} {start goal : Cell} {k : Nat}
    {cur : Cell} {st : BfsState} (h : BMid rows cols grid start goal k cur st) :
    BMid rows cols grid start goal k cur (bfsVisit rows cols grid st cur) := by
  unfold bfsVisit
  exact foldl_preserve_mem dirs (fun s d hd hs => hs.relaxStep hd) st h

theorem BMid.toBInv {rows cols : Nat} {grid : Grid} {start goal : Cell} {k : Nat}
    {cur : Cell} {st : BfsState} (h : BMid rows cols grid start goal k cur st)
    (hnb : ∀ w, Adj cur w → stepOK rows cols grid w → w ∈ st.visited) :
    BInv rows cols grid start goal k st := by
  refine ⟨h.vnodup, h.vbound, h.startVis, h.qsub, h.qsplit, h.visDist, h.levelComplete,
    ?_, h.goalPending, h.cfroot, h.cfparent, h.cfkeys⟩
  intro u hu hnq w hadj hok
  by_cases hc : u = cur
  · subst hc
    exact hnb w hadj hok
  · exact h.closure u hu hnq hc w hadj hok

theorem BInv.advance {rows cols : Nat} {grid : Grid} {start goal : Cell} {k : Nat}
    {st : BfsState} (h : BInv rows cols grid start goal k st)
    (hq : ∀ v ∈ st.q, DistIs (stepOK rows cols grid) start v (k + 1)) :
    BInv rows cols grid start goal (k + 1) st := by
  refine ⟨h.vnodup, h.vbound, h.startVis, h.qsub,
    ⟨st.q, [], (List.append_nil st.q).symm, hq, fun v hv => absurd hv (List.not_mem_nil v)⟩,
    h.visDist, ?_, h.closure, h.goalPending, h.cfroot, h.cfparent, h.cfkeys⟩
  intro w n hr hn
  rcases Nat.lt_or_ge n (k + 1) with hlt | hge
  · exact h.levelComplete w n hr (by omega)
  · have hn1 : n = k + 1 := by omega
    subst hn1
    obtain ⟨m, hdm⟩ := distIs_exists hr
    have hmle : m ≤ k + 1 := hdm.2 _ hr
    rcases Nat.lt_or_ge m (k + 1) with hm | hm
    · exact h.levelComplete w m hdm.1 (by omega)
    · have hmeq : m = k + 1 := by omega
      subst hmeq
      obtain ⟨v, hrv, hadj, hok⟩ := reachN_succ_inv hdm.1
      have hvvis : v ∈ st.visited := h.levelComplete v k hrv (Nat.le_refl k)
      have hvnq : v ∉ st.q := by
        intro hvq
        obtain ⟨j, hdj⟩ := distIs_exists hrv
        have hjk : j ≤ k := hdj.2 _ hrv
        have := (hq v hvq).unique_dist hdj
        omega
      exact h.closure v hvvis hvnq w hadj hok

theorem BInv.front_dist {rows cols : Nat} {grid : Grid} {start goal : Cell} {k : Nat}
    {st : BfsState} {cur : Cell} {rest : List Cell}
    (h : BInv rows cols grid start goal k st) (hq : st.q = cur :: rest) :
    ∃ k', BInv rows cols grid start goal k' st ∧
      DistIs (stepOK rows cols grid) start cur k' := by
  obtain ⟨q1, q2, hsplit, hd1, hd2⟩ := h.qsplit
  cases q1 with
  | nil =>
    rw [hq] at hsplit
    simp only [List.nil_append] at hsplit
    have hcur : cur ∈ q2 := by rw [← hsplit]; exact List.mem_cons_self _ _
    refine ⟨k + 1, h.advance ?_, hd2 cur hcur⟩
    intro v hv
    apply hd2
    rw [hq, hsplit] at hv
    exact hv
  | cons c q1' =>
    rw [hq, List.cons_append] at hsplit
    injection hsplit with hc hrest
    subst hc
    exact ⟨k, h, hd1 cur (List.mem_cons_self _ _)⟩

theorem bfsRelax_measure (rows cols : Nat) (grid : Grid) (start cur : Cell)
    (st : BfsState) (d : Cell) (hnd : st.visited.Nodup)
    (hb : ∀ v ∈ st.visited, v = start ∨ stepOK rows cols grid v) :
    bfsMeasure rows cols (bfsRelax rows cols grid cur st d) ≤ bfsMeasure rows cols st := by
  rcases bfsRelax_cases rows cols grid cur st d with heq | ⟨w, hwdef, hok, hnew, heq⟩
  · rw [heq]
  · rw [heq]
    show (st.q ++ [w]).length + (1 + rows * cols - (w :: st.visited).length) ≤
      st.q.length + (1 + rows * cols - st.visited.length)
    simp only [List.length_append, List.length_cons, List.length_nil]
    have hlen : st.visited.length + 1 ≤ 1 + rows * cols := by
      have hnd' : (w :: st.visited).Nodup := List.nodup_cons.mpr ⟨hnew, hnd⟩
      have hb' : ∀ v ∈ w :: st.visited, v = start ∨ stepOK rows cols grid v := by
        intro v hv
        rcases List.mem_cons.mp hv with hv | hv
        · subst hv; exact Or.inr hok
        · exact hb v hv
      have := visited_length_le rows cols grid start _ hnd' hb'
      simpa using this
    omega

theorem bfsVisitGo_measure {rows cols : Nat} {grid : Grid} {start goal : Cell} {k : Nat}
    {cur : Cell} :
    ∀ (l : List Cell) (st : BfsState), l ⊆ dirs →
      BMid rows cols grid start goal k cur st →
      bfsMeasure rows cols (l.foldl (bfsRelax rows cols grid cur) st) ≤
        bfsMeasure rows cols st := by
  intro l
  induction l with
  | nil => intro st _ _; exact Nat.le_refl _
  | cons d rest ih =>
    intro st hsub h
    rw [List.foldl_cons]
    have hd : d ∈ dirs := hsub (List.mem_cons_self _ _)
    exact Nat.le_trans
      (ih _ (fun x hx => hsub (List.mem_cons_of_mem _ hx)) (h.relaxStep hd))
      (bfsRelax_measure rows cols grid start cur st d h.vnodup h.vbound)

theorem BInv.chain_of_dist {rows cols : Nat} {grid : Grid} {start goal : Cell} {k : Nat}
    {st : BfsState} (h : BInv rows cols grid start goal k st) :
    ∀ (n : Nat) (v : Cell), v ∈ st.visited →
      DistIs (stepOK rows cols grid) start v n →
      ∃ p, Chain st.cameFrom v p ∧ Walk (stepOK rows cols grid) start p v ∧
        p.length = n + 1 := by
  intro n
  induction n using Nat.strong_induction_on with
  | _ n ih =>
    intro v hv hdist
    by_cases hvs : v = start
    · subst hvs
      have hn0 : n = 0 := hdist.unique_dist distIs_start
      subst hn0
      exact ⟨[v], Chain.base h.cfroot, Walk.single v, rfl⟩
    · have hsome := h.cfkeys v hv hvs
      obtain ⟨u, hget⟩ := Option.isSome_iff_exists.mp hsome
      obtain ⟨hadj, hok, huvis, m, hdu, hdv⟩ := h.cfparent v u hget
      have hnm : n = m + 1 := hdist.unique_dist hdv
      subst hnm
      obtain ⟨p, hchain, hwalk, hlen⟩ := ih m (Nat.lt_succ_self m) u huvis hdu
      exact ⟨p ++ [v], Chain.step hget hchain, hwalk.snoc hadj hok, by simp [hlen]⟩

theorem BInv.all_reachable_visited {rows cols : Nat} {grid : Grid} {start goal : Cell}
    {k : Nat} {st : BfsState} (h : BInv rows cols grid start goal k st)
    (hq : st.q = []) :
    ∀ (w : Cell) (n : Nat), ReachN (stepOK rows cols grid) start w n →
      w ∈ st.visited := by
  intro w n hr
  induction hr with
  | refl => exact h.startVis
  | step hr hadj hok ih =>
    rename_i v w' n'
    exact h.closure v ih (by rw [hq]; exact List.not_mem_nil v) w' hadj hok

theorem bfsLoop_correct {rows cols : Nat} {grid : Grid} {start goal : Cell} :
    ∀ (fuel k : Nat) (st : BfsState), BInv rows cols grid start goal k st →
      bfsMeasure rows cols st < fuel →
      (∀ p, bfsLoop rows cols grid goal fuel st = some p →
        Walk (stepOK rows cols grid) start p goal ∧
          ∀ q, Walk (stepOK rows cols grid) start q goal → p.length ≤ q.length) ∧
      (bfsLoop rows cols grid goal fuel st = none →
        ∀ p, ¬ Walk (stepOK rows cols grid) start p goal) := by
  intro fuel
  induction fuel with
  | zero =>
    intro k st _ hm
    exact absurd hm (Nat.not_lt_zero _)
  | succ f ih =>
    intro k st hinv hm
    cases hq : st.q with
    | nil =>
      have hres : bfsLoop rows cols grid goal (f + 1) st = none := by
        simp only [bfsLoop, hq]
      refine ⟨?_, ?_⟩
      · intro p hp
        rw [hres] at hp
        cases hp
      · intro _ p hw
        have hvis := hinv.all_reachable_visited hq goal _ hw.toReachN
        have hgq := hinv.goalPending hvis
        rw [hq] at hgq
        cases hgq
    | cons cur rest =>
      obtain ⟨k', hinv', hcd⟩ := hinv.front_dist hq
      by_cases hgoal : cur = goal
      · subst hgoal
        have hres : bfsLoop rows cols grid cur (f + 1) st =
            some (reconstructGo st.cameFrom (st.cameFrom.length + 1) cur [cur]) := by
          simp [bfsLoop, hq]
        have hgvis : cur ∈ st.visited :=
          hinv'.qsub cur (by rw [hq]; exact List.mem_cons_self _ _)
        obtain ⟨n, hdn⟩ := hinv'.visDist cur hgvis
        obtain ⟨p, hchain, hwalk, hlen⟩ := hinv'.chain_of_dist n cur hgvis hdn
        have hrec : reconstructGo st.cameFrom (st.cameFrom.length + 1) cur [cur] = p :=
          reconstructGo_inline_eq hchain
        refine ⟨?_, ?_⟩
        · intro p' hp'
          rw [hres, hrec] at hp'
          injection hp' with hpp
          subst hpp
          refine ⟨hwalk, ?_⟩
          intro q hqw
          have hq1 : n ≤ q.length - 1 := hdn.2 _ hqw.toReachN
          have hq2 : 0 < q.length := hqw.length_pos
          omega
        · intro hnone
          rw [hres] at hnone
          cases hnone
      · have hres : bfsLoop rows cols grid goal (f + 1) st =
            bfsLoop rows cols grid goal f
              (bfsVisit rows cols grid { st with q := rest } cur) := by
          simp only [bfsLoop, hq]
          rw [if_neg hgoal]
        have hmid := hinv'.pop_mid hq hcd hgoal
        have hmid' := hmid.visitStep
        have hnewinv := hmid'.toBInv
          (bfsVisit_closes { st with q := rest } cur)
        have hmeas1 : bfsMeasure rows cols
            (bfsVisit rows cols grid { st with q := rest } cur) ≤
            bfsMeasure rows cols { st with q := rest } := by
          unfold bfsVisit
          exact bfsVisitGo_measure dirs _ (fun x hx => hx) hmid
        have hmeas2 : bfsMeasure rows cols { st with q := rest } + 1 =
            bfsMeasure rows cols st := by
          show rest.length + (1 + rows * cols - st.visited.length) + 1 =
            st.q.length + (1 + rows * cols - st.visited.length)
          rw [hq]
          simp only [List.length_cons]
          omega
        rw [hres]
        exact ih k' _ hnewinv (by omega)

theorem BInv.initial (rows cols : Nat) (grid : Grid) (start goal : Cell)
    (hne : start ≠ goal) :
    BInv rows cols grid start goal 0
      { q := [start], visited := [start], cameFrom := [] } := by
  refine ⟨?_, ?_, ?_, ?_, ?_, ?_, ?_, ?_, ?_, ?_, ?_, ?_⟩
  · simp
  · intro v hv
    rw [List.mem_singleton] at hv
    exact Or.inl hv
  · exact List.mem_singleton_self _
  · intro v hv
    exact hv
  · refine ⟨[start], [], rfl, ?_, ?_⟩
    · intro v hv
      rw [List.mem_singleton] at hv
      subst hv
      exact distIs_start
    · intro v hv
      exact absurd hv (List.not_mem_nil v)
  · intro v hv
    rw [List.mem_singleton] at hv
    subst hv
    exact ⟨0, distIs_start⟩
  · intro w n hr hn
    have hn0 : n = 0 := by omega
    subst hn0
    rw [reachN_zero hr]
    exact List.mem_singleton_self _
  · intro u hu hnq w hadj hok
    rw [List.mem_singleton] at hu
    subst hu
    exact absurd (List.mem_singleton_self _) hnq
  · intro hg
    rw [List.mem_singleton] at hg
    exact absurd hg.symm hne
  · rfl
  · intro v u hget
    simp [dictGet?] at hget
  · intro v hv hvs
    rw [List.mem_singleton] at hv
    exact absurd hv hvs

/-- Counterexample to C4: `bfs_path` never validates the start cell, so
with both endpoints on the 1×1 grid's single Wall cell it returns the
path `[(0, 0)]` although no path through non-Wall cells exists, and with
a walled start adjacent to an empty goal it returns a path whose first
cell is a Wall. -/
theorem bfs_path_wall_start_counterexample :
    bfs_path 1 1 [[WALL]] (some (0, 0)) (some (0, 0)) = some [(0, 0)] ∧
    gridAt [[WALL]] 0 0 = WALL ∧
    bfs_path 1 2 [[WALL, EMPTY]] (some (0, 0)) (some (0, 1)) =
      some [(0, 0), (0, 1)] := by
  refine ⟨by decide, by decide, by decide⟩

/-- C4 (amended): `bfs_path` returns `None` on an undefined endpoint and
`[start]` on coinciding defined endpoints (even on a Wall); any other
returned path is a 4-adjacent walk from start to goal whose cells after
the first are in bounds and not Walls, of minimal length among all such
walks, and the result is `None` exactly when no such walk exists — the
start cell itself is never validated. -/
theorem bfs_path_minimal :
    (∀ (rows cols : Nat) (grid : Grid) (goal : Option Cell),
      bfs_path rows cols grid none goal = none) ∧
    (∀ (rows cols : Nat) (grid : Grid) (start : Option Cell),
      bfs_path rows cols grid start none = none) ∧
    (∀ (rows cols : Nat) (grid : Grid) (start : Cell),
      bfs_path rows cols grid (some start) (some start) = some [start]) ∧
    (∀ (rows cols : Nat) (grid : Grid) (start goal : Cell) (p : List Cell),
      bfs_path rows cols grid (some start) (some goal) = some p →
        Walk (stepOK rows cols grid) start p goal ∧
          ∀ q, Walk (stepOK rows cols grid) start q goal → p.length ≤ q.length) ∧
    (∀ (rows cols : Nat) (grid : Grid) (start goal : Cell),
      bfs_path rows cols grid (some start) (some goal) = none ↔
        ∀ p, ¬ Walk (stepOK rows cols grid) start p goal) := by
  have hmain : ∀ (rows cols : Nat) (grid : Grid) (start goal : Cell), start ≠ goal →
      (∀ p, bfsLoop rows cols grid goal (bfsFuel rows cols)
          { q := [start], visited := [start], cameFrom := [] } = some p →
        Walk (stepOK rows cols grid) start p goal ∧
          ∀ q, Walk (stepOK rows cols grid) start q goal → p.length ≤ q.length) ∧
      (bfsLoop rows cols grid goal (bfsFuel rows cols)
          { q := [start], visited := [start], cameFrom := [] } = none →
        ∀ p, ¬ Walk (stepOK rows cols grid) start p goal) := by
    intro rows cols grid start goal hne
    refine bfsLoop_correct (bfsFuel rows cols) 0 _
      (BInv.initial rows cols grid start goal hne) ?_
    show 1 + (1 + rows * cols - 1) < rows * cols + 2
    omega
  have heq : ∀ (rows cols : Nat) (grid : Grid) (start goal : Cell), start ≠ goal →
      bfs_path rows cols grid (some start) (some goal) =
        bfsLoop rows cols grid goal (bfsFuel rows cols)
          { q := [start], visited := [start], cameFrom := [] } := by
    intro rows cols grid start goal hne
    unfold bfs_path
    dsimp only
    rw [if_neg hne]
  refine ⟨?_, ?_, ?_, ?_, ?_⟩
  · intro rows cols grid goal
    cases goal <;> rfl
  · intro rows cols grid start
    cases start <;> rfl
  · intro rows cols grid start
    unfold bfs_path
    dsimp only
    rw [if_pos rfl]
  · intro rows cols grid start goal p hp
    by_cases hne : start = goal
    · subst hne
      unfold bfs_path at hp
      dsimp only at hp
      rw [if_pos rfl] at hp
      injection hp with hps
      subst hps
      refine ⟨Walk.single start, ?_⟩
      intro q hq
      have := hq.length_pos
      simp only [List.length_singleton]
      omega
    · rw [heq rows cols grid start goal hne] at hp
      exact (hmain rows cols grid start goal hne).1 p hp
  · intro rows cols grid start goal
    by_cases hne : start = goal
    · subst hne
      constructor
      · intro h
        unfold bfs_path at h
        dsimp only at h
        rw [if_pos rfl] at h
        cases h
      · intro hno
        exact absurd (Walk.single start) (hno [start])
    · rw [heq rows cols grid start goal hne]
      constructor
      · exact (hmain rows cols grid start goal hne).2
      · intro hno
        cases hres : bfsLoop rows cols grid goal (bfsFuel rows cols)
            { q := [start], visited := [start], cameFrom := [] } with
        | none => rfl
        | some p =>
          exact absurd ((hmain rows cols grid start goal hne).1 p hres).1 (hno p)

/-- Witness for the amended C4: on an all-empty 2×2 grid, `bfs_path`
returns the 3-cell walk through `(1, 0)`, which is minimal. -/
theorem bfs_path_minimal_witness :
    bfs_path 2 2 (make_grid 2 2) (some (0, 0)) (some (1, 1)) =
      some [(0, 0), (1, 0), (1, 1)] ∧
    Walk (stepOK 2 2 (make_grid 2 2)) (0, 0) [(0, 0), (1, 0), (1, 1)] (1, 1) ∧
    ∀ q, Walk (stepOK 2 2 (make_grid 2 2)) (0, 0) q (1, 1) → 3 ≤ q.length := by
  have h := bfs_path_minimal.2.2.2.1 2 2 (make_grid 2 2) (0, 0) (1, 1)
    [(0, 0), (1, 0), (1, 1)] (by decide)
  exact ⟨by decide, h.1, fun q hq => h.2 q hq⟩

end Maze
